import Mathlib

/-!
Verification of the multimissile web-scraping work pool (`src/main.py`)
against its natural-language specification.

The Python source is shallowly embedded: product dictionaries become
association lists of string keys and dynamic values, database writes
become explicit payload records, the circuit-breaker state becomes an
explicit record threaded through the handlers, and every fallible or
effectful step is parameterised by an explicit outcome oracle.
-/

set_option autoImplicit false
set_option linter.unusedVariables false

namespace Scraper

/-- Dynamic values stored in a Python product dict.  `Val.none` is Python's
`None`; `Val.elem` stands for an opaque WebElement handle (always truthy). -/
inductive Val where
  | none
  | str (s : String)
  | num (q : ℚ)
  | bool (b : Bool)
  | elem (id : Nat)
deriving DecidableEq, Repr

/-- Python truthiness of a `Val`. -/
def Val.truthy : Val → Bool
  | .none => false
  | .str s => !(s == "")
  | .num q => !(q == 0)
  | .bool b => b
  | .elem _ => true

/-- A Python dict with string keys, in insertion order. -/
def PDict : Type := List (String × Val)

instance : DecidableEq PDict := by unfold PDict; infer_instance

instance : Repr PDict := by unfold PDict; infer_instance

instance : Inhabited PDict := ⟨([] : List (String × Val))⟩

/-- `d.get(k)` for a Python dict: the value at `k`, or `None` when absent. -/
def dictGet (d : PDict) (k : String) : Val :=
  match List.find? (fun e => e.1 == k) d with
  | some e => e.2
  | Option.none => Val.none

/-- `d[k] = v` for a Python dict: replace the existing entry in place, else
append a new entry at the end. -/
def dictSet : PDict → String → Val → PDict
  | [], k, v => [(k, v)]
  | e :: rest, k, v => if e.1 == k then (k, v) :: rest else e :: dictSet rest k v

/-- A real Python dict never holds two entries with the same key. -/
def keysNodup (d : PDict) : Prop := (d.map Prod.fst).Nodup

instance (d : PDict) : Decidable (keysNodup d) := by
  unfold keysNodup; infer_instance

/-!
## Deduplication by `product_url` (`UniversalProductExtractor._dedupe_by_url`)

Source loop: `aggregated` maps a url to the record kept for it, `order`
remembers first-occurrence order; a later record with the same url fills
falsy slots of the kept record with its truthy values (the `_element` key
is skipped); records with a falsy url are dropped.
-/

/-- The merge performed on a collision: for each entry of `p` (in order),
skip `_element`; otherwise copy the value into `existing` when the value is
truthy and the slot currently held by `existing` is falsy. -/
def mergeInto (existing p : PDict) : PDict :=
  p.foldl
    (fun ex e =>
      if e.1 == "_element" then ex
      else if e.2.truthy && !(dictGet ex e.1).truthy then dictSet ex e.1 e.2
      else ex)
    existing

/-- Lookup in the `aggregated` association list (keyed by url value). -/
def lookupA : List (Val × PDict) → Val → Option PDict
  | [], _ => Option.none
  | e :: rest, u => if e.1 = u then some e.2 else lookupA rest u

/-- Replace the record held for url `u` by its merge with `p`. -/
def updateA : List (Val × PDict) → Val → PDict → List (Val × PDict)
  | [], _, _ => []
  | e :: rest, u, p =>
    if e.1 = u then (e.1, mergeInto e.2 p) :: rest else e :: updateA rest u p

/-- The loop body of `_dedupe_by_url`, threading `aggregated` and `order`. -/
def dedupeGo : List (Val × PDict) → List Val → List PDict →
    List (Val × PDict) × List Val
  | agg, order, [] => (agg, order)
  | agg, order, p :: rest =>
    let url := dictGet p "product_url"
    if url.truthy then
      match lookupA agg url with
      | Option.none => dedupeGo (agg ++ [(url, p)]) (order ++ [url]) rest
      | some _ => dedupeGo (updateA agg url p) order rest
    else dedupeGo agg order rest

/-- `_dedupe_by_url`: returns `[aggregated[u] for u in order]`. -/
def dedupe_by_url (products : List PDict) : List PDict :=
  let st := dedupeGo [] [] products
  st.2.map (fun u => (lookupA st.1 u).getD [])

/-- Spec-side: the urls of `ps` that are truthy, first occurrences only,
in order of first occurrence. -/
def firstOccUrls : List PDict → List Val
  | [] => []
  | p :: rest =>
    let u := dictGet p "product_url"
    if u.truthy then u :: (firstOccUrls rest).filter (fun v => decide (v ≠ u))
    else firstOccUrls rest

/-- Spec-side: the records of `ps` whose `product_url` equals `u`. -/
def groupOf (u : Val) (ps : List PDict) : List PDict :=
  ps.filter (fun p => decide (dictGet p "product_url" = u))

/-- Spec-side: the record kept for one url group — the first occurrence,
with later occurrences merged into it left to right. -/
def mergeGroup : List PDict → PDict
  | [] => []
  | p :: rest => rest.foldl mergeInto p

/-!
## Python numeric primitives

`float`, `int(float(...))` and `round(x, 2)` are modelled over `ℚ`:
decimal strings are read exactly, `round` is round-half-even (banker's
rounding, as Python's `round` implements on decimal values), `int`
truncates toward zero.  Scientific notation and infinities are treated as
parse failures; nothing in the repository produces them.
-/

/-- Strip leading and trailing whitespace (Python `str.strip()`). -/
def pyStrip (cs : List Char) : List Char :=
  ((cs.dropWhile Char.isWhitespace).reverse.dropWhile Char.isWhitespace).reverse

/-- Value of a big-endian list of ASCII digits. -/
def natOfDigits (cs : List Char) : ℕ :=
  cs.foldl (fun a c => 10 * a + (c.toNat - 48)) 0

/-- The numeric part of `float(s)`: integer digits `ip`, and the rest of
the input after them — empty (pure integer) or a dot followed by the
fractional digits (a second dot anywhere raises). -/
def floatCore (sign : ℚ) (ip : List Char) : List Char → Option ℚ
  | [] =>
    if !ip.isEmpty && ip.all Char.isDigit then some (sign * natOfDigits ip)
    else Option.none
  | _ :: fp =>
    if fp.contains '.' then Option.none
    else if !(ip ++ fp).isEmpty && (ip ++ fp).all Char.isDigit then
      some (sign * (natOfDigits ip + natOfDigits fp / 10 ^ fp.length))
    else Option.none

/-- Python `float(s)` on decimal literals: optional surrounding
whitespace, optional sign, digits with at most one dot and at least one
digit; anything else raises and is modelled as `none`. -/
def pyFloatString (s : String) : Option ℚ :=
  let cs := pyStrip s.toList
  let sign : ℚ := if cs.head? = some '-' then -1 else 1
  let body := if cs.head? = some '-' ∨ cs.head? = some '+' then cs.tail else cs
  floatCore sign (body.takeWhile (fun c => !(c == '.')))
    (body.dropWhile (fun c => !(c == '.')))

/-- Python `float(x)` on a dynamic value.  `float(True) = 1.0`;
`None` and opaque objects raise `TypeError` (modelled as `none`). -/
def pyFloat : Val → Option ℚ
  | Val.num q => some q
  | Val.bool b => some (if b then 1 else 0)
  | Val.str s => pyFloatString s
  | Val.none => Option.none
  | Val.elem _ => Option.none

/-- Round-half-even of a rational to an integer. -/
def roundHalfEven (q : ℚ) : ℤ :=
  let f := ⌊q⌋
  let r := q - f
  if r < 1/2 then f
  else if r > 1/2 then f + 1
  else if Even f then f else f + 1

/-- Python `round(x, 2)`. -/
def round2 (q : ℚ) : ℚ := (roundHalfEven (q * 100) : ℚ) / 100

/-- Python `int(x)` on a rational: truncation toward zero. -/
def pyIntTrunc (q : ℚ) : ℤ := if q < 0 then ⌈q⌉ else ⌊q⌋

/-!
## Product store (`UniversalProductExtractor._save_products_to_db`)

The Supabase round-trip is parameterised by an oracle giving each insert
attempt's outcome; everything else mirrors the source loop.
-/

/-- Maximum accepted `current_price` (`999999999.99` in the source). -/
def maxPrice : ℚ := 999999999.99

/-- Python `x or default`. -/
def pyOr (v d : Val) : Val := if v.truthy then v else d

/-- Rating sanitisation (source lines: clamp to `[0, 100]`, round to two
decimals, `None` on conversion failure). -/
def sanitizeRating (v : Val) : Option ℚ :=
  match v with
  | Val.none => Option.none
  | v =>
    match pyFloat v with
    | Option.none => Option.none
    | some rf =>
      if rf < 0 then some 0
      else if rf > 100 then some 100
      else some (round2 rf)

/-- Price sanitisation (source: negative prices become `None`, prices
above the maximum are clamped to it, the rest rounded to two decimals). -/
def sanitizePrice (v : Val) : Option ℚ :=
  match v with
  | Val.none => Option.none
  | v =>
    match pyFloat v with
    | Option.none => Option.none
    | some pf =>
      if pf < 0 then Option.none
      else if pf > maxPrice then some maxPrice
      else some (round2 pf)

/-- Review-count sanitisation (`int(float(reviews))`, negatives dropped). -/
def sanitizeReviews (v : Val) : Option ℤ :=
  match v with
  | Val.none => Option.none
  | v =>
    match pyFloat v with
    | Option.none => Option.none
    | some rq =>
      let ri := pyIntTrunc rq
      if ri < 0 then Option.none else some ri

/-- The `db_data` payload built for one candidate. -/
structure DbRow where
  platform_url : String
  product_name : Val
  original_price : Val
  current_price : Option ℚ
  product_url : Val
  product_image_url : Val
  description : Val
  rating : Option ℚ
  reviews : Option ℤ
  in_stock : Val
  brand : Val
  product_type_id : Option ℤ
  searched_product_id : Option ℤ
deriving DecidableEq, Repr

def buildDbRow (platform_url : String) (product_type_id searched_product_id : Option ℤ)
    (product : PDict) : DbRow :=
  { platform_url := platform_url
    product_name := pyOr (dictGet product "title") (Val.str "")
    original_price := dictGet product "raw_price"
    current_price := sanitizePrice (dictGet product "price")
    product_url := pyOr (dictGet product "product_url") (Val.str "")
    product_image_url := dictGet product "image_url"
    description := dictGet product "description"
    rating := sanitizeRating (dictGet product "rating")
    reviews := sanitizeReviews (dictGet product "review_count")
    in_stock := dictGet product "in_stock"
    brand := dictGet product "brand"
    product_type_id := product_type_id
    searched_product_id := searched_product_id }

/-- Outcome of one `insert(...).execute()` call. -/
inductive InsertOutcome where
  | inserted       -- response.data non-empty
  | noData         -- response.data empty
  | dupError       -- exception mentioning duplicate/unique/constraint
  | otherError     -- any other exception
deriving DecidableEq, Repr

structure SaveState where
  saved_count : ℕ
  failed_count : ℕ
  insertedRows : List DbRow
  idx : ℕ
deriving Repr

/-- One iteration of the save loop over one candidate. -/
def saveStep (dbo : ℕ → InsertOutcome) (platform_url : String)
    (product_type_id searched_product_id : Option ℤ)
    (st : SaveState) (product : PDict) : SaveState :=
  let row := buildDbRow platform_url product_type_id searched_product_id product
  if !row.product_name.truthy || !row.product_url.truthy then
    -- skip: required fields missing
    { st with failed_count := st.failed_count + 1, idx := st.idx + 1 }
  else
    match dbo st.idx with
    | InsertOutcome.inserted =>
      { st with saved_count := st.saved_count + 1,
                insertedRows := st.insertedRows ++ [row], idx := st.idx + 1 }
    | InsertOutcome.noData =>
      { st with failed_count := st.failed_count + 1, idx := st.idx + 1 }
    | InsertOutcome.dupError =>
      -- duplicate key: the product already exists, counted as saved
      { st with saved_count := st.saved_count + 1, idx := st.idx + 1 }
    | InsertOutcome.otherError =>
      { st with failed_count := st.failed_count + 1, idx := st.idx + 1 }

/-- `_save_products_to_db` (the Supabase client is taken to be available;
its absence only short-circuits to 0). -/
def save_products_to_db (dbo : ℕ → InsertOutcome) (products : List PDict)
    (platform_url platform : String)
    (product_type_id searched_product_id : Option ℤ) : SaveState :=
  if products.isEmpty then ⟨0, 0, [], 0⟩
  else products.foldl (saveStep dbo platform_url product_type_id searched_product_id)
    ⟨0, 0, [], 0⟩

/-!
## Extraction pipeline (`UniversalProductExtractor.extract_products`)

The six strategies are parameters (each one's post-validation result
list); the cascade, the "no results" early return, deduplication,
truncation and the save call mirror the source.
-/

/-- The strategy cascade of `extract_products`: each later strategy is
consulted only when the running result is still empty. -/
def chainSelect (s1 s2 s3 s4 s5 s6 : List PDict) : List PDict :=
  let products := s1
  let products := if products.isEmpty then s2 else products
  let products := if products.isEmpty then s3 else products
  let products := if products.isEmpty then s4 else products
  let products := if products.isEmpty then s5 else products
  let products := if products.isEmpty then s6 else products
  products

/-- Same cascade with an explicit count of how many strategies were
invoked (a strategy is invoked exactly when all earlier ones returned
empty lists, mirroring the source's short-circuit `if not products`). -/
def cascadeWithCount : List (List PDict) → List PDict × ℕ
  | [] => ([], 0)
  | s :: rest =>
    if s.isEmpty then
      let r := cascadeWithCount rest
      (r.1, r.2 + 1)
    else (s, 1)

/-- The dict returned by a successful `extract_products` call (`url_id`,
`platform` etc. are environment echoes and omitted; absent keys are
`Option.none` so that `result.get(key, 0)` defaults are faithful). -/
structure ExtractResult where
  success : Bool
  num_products : Option ℕ
  products : List PDict
  saved_to_db : Option ℕ
deriving Repr

/-- `extract_products` after a successful render: strategy cascade,
"no results" early return, dedupe, truncate, save. -/
def extract_products (s1 s2 s3 s4 s5 s6 : List PDict)
    (pageIndicatesNoResults : Bool) (max_items : ℕ)
    (dbo : ℕ → InsertOutcome) (platform_url platform : String)
    (product_type_id searched_product_id : Option ℤ) : ExtractResult :=
  let products := chainSelect s1 s2 s3 s4 s5 s6
  if products.isEmpty && pageIndicatesNoResults then
    { success := true, num_products := some 0, products := [],
      saved_to_db := Option.none }
  else
    let products := dedupe_by_url products
    let products := if max_items < products.length then products.take max_items else products
    let saved := save_products_to_db dbo products platform_url platform
      product_type_id searched_product_id
    { success := true, num_products := some products.length,
      products := products, saved_to_db := some saved.saved_count }

/-!
## Bulk statistics (`ParallelURLExtractor.run_bulk`)
-/

/-- The per-job result dict as consumed by `run_bulk`'s stats loop. -/
structure JobResult where
  success : Bool
  num_products : Option ℕ
  saved_to_db : Option ℕ
deriving Repr

structure BulkStats where
  submitted : ℕ
  succeeded : ℕ
  failed : ℕ
  total_products_found : ℕ
  total_saved_to_db : ℕ
deriving DecidableEq, Repr

/-- One iteration of `run_bulk`'s stats loop (lines 2325-2330): only
successful results contribute to the totals, absent keys default to 0. -/
def bulkStep (st : BulkStats) (r : JobResult) : BulkStats :=
  if r.success then
    { st with succeeded := st.succeeded + 1,
              total_products_found :=
                st.total_products_found + (r.num_products.getD 0),
              total_saved_to_db :=
                st.total_saved_to_db + (r.saved_to_db.getD 0) }
  else { st with failed := st.failed + 1 }

/-- The stats accumulated by `run_bulk` over a list of job results. -/
def runBulkStats (results : List JobResult) : BulkStats :=
  results.foldl bulkStep ⟨results.length, 0, 0, 0, 0⟩

/-- A job result as produced by the worker from a successful
`extract_products` call (failure results carry no counts). -/
def resultOfExtract (r : ExtractResult) : JobResult :=
  { success := r.success, num_products := r.num_products,
    saved_to_db := r.saved_to_db }

/-- Results whose successful entries are pipeline outputs: `saved_to_db`
counts at most `num_products` candidates. -/
def SavedBounded (r : JobResult) : Prop :=
  r.success = true → (r.saved_to_db.getD 0) ≤ (r.num_products.getD 0)

instance (r : JobResult) : Decidable (SavedBounded r) := by
  unfold SavedBounded; infer_instance

/-!
## URL-row updates (`_update_url_status`, `_should_retry`, `_mark_for_retry`)
-/

/-- Keyword arguments of `_update_url_status`. -/
structure UpdateArgs where
  processing_status : Option String := Option.none
  success : Option Bool := Option.none
  products_found : Option ℤ := Option.none
  products_saved : Option ℤ := Option.none
  error_message : Option String := Option.none
  retry_count : Option ℤ := Option.none
  clear_claim : Bool := false
deriving DecidableEq, Repr

/-- The update payload actually sent to the queue table.  A `some` field
is present in the payload; `claimed_by_set_null`/`claimed_at_set_null`
record that the payload explicitly writes `null` into the claim columns.
`updated_at` is always set and carries no information here. -/
structure UpdatePayload where
  processing_status : Option String
  processed_at_set : Bool
  success : Option Bool
  products_found : Option ℤ
  products_saved : Option ℤ
  error_message : Option String
  retry_count : Option ℤ
  claimed_by_set_null : Bool
  claimed_at_set_null : Bool
deriving DecidableEq, Repr

/-- `_update_url_status`: builds the payload (`if processing_status:` is
Python truthiness, so an empty string is skipped like `None`). -/
def update_url_status (a : UpdateArgs) : UpdatePayload :=
  let status := match a.processing_status with
    | some s => if s = "" then Option.none else some s
    | Option.none => Option.none
  { processing_status := status
    processed_at_set :=
      match status with
      | some s => s = "completed" ∨ s = "failed"
      | Option.none => false
    success := a.success
    products_found := a.products_found
    products_saved := a.products_saved
    error_message := a.error_message.map (fun m => m.take 500)
    retry_count := a.retry_count
    claimed_by_set_null := a.clear_claim
    claimed_at_set_null := a.clear_claim }

/-- `_should_retry(current_retry_count, max_retries)`. -/
def should_retry (current_retry_count max_retries : ℤ) : Bool :=
  if max_retries ≤ 0 then false
  else current_retry_count < max_retries

/-- `_mark_for_retry(url_id, current_retry_count, error_message,
max_retries)`: the `UpdateArgs` it passes to `_update_url_status`. -/
def mark_for_retry (current_retry_count : ℤ) (error_message : Option String)
    (max_retries : ℤ) : UpdateArgs :=
  let next_retry := current_retry_count + 1
  let will_retry := next_retry ≤ max_retries
  { processing_status := some (if will_retry then "retrying" else "failed")
    success := some false
    error_message := error_message
    retry_count := some next_retry
    clear_claim := true }

/-!
## Worker job handling (`ParallelURLExtractor._run_job`)

The circuit-breaker state is the triple guarded by the two mutexes in the
source; wall-clock time is an explicit parameter.  Sleeps are reported as
durations, driver shutdown as a flag.
-/

/-- Shared circuit-breaker state (`_errno11_count`, `_global_pause`,
`_global_pause_until`). -/
structure BreakerState where
  errno11_count : ℕ
  global_pause : Bool
  global_pause_until : ℚ
deriving DecidableEq, Repr

def ERRNO11_THRESHOLD : ℕ := 3

/-- The pause check at the top of `_run_job` (lines 2113-2122): returns
the state after the check and the number of seconds slept. -/
def pauseCheck (st : BreakerState) (now : ℚ) : BreakerState × ℚ :=
  if st.global_pause ∧ now < st.global_pause_until then
    (st, st.global_pause_until - now)
  else if st.global_pause then
    ({ st with global_pause := false }, 0)
  else (st, 0)

/-- Everything the exception handler of `_run_job` does to the outside
world, in order: the state other workers observe while this worker
sleeps, the final state, the sleep length, whether every extractor's
drivers were closed, and the row update issued (if the job has a url id). -/
structure FailureEffects where
  pausedState : Option BreakerState
  state : BreakerState
  backoff_seconds : ℚ
  closed_all_drivers : Bool
  skipped : Bool
  update : Option UpdateArgs
deriving Repr

/-- The `except` branch of `_run_job` (lines 2145-2230). -/
def handleException (st : BreakerState) (now : ℚ) (isErrno11 : Bool)
    (retry_count max_retries : ℤ) (has_url_id : Bool)
    (error_message : String) : FailureEffects :=
  if isErrno11 then
    let cnt := st.errno11_count + 1
    if ERRNO11_THRESHOLD ≤ cnt then
      -- activate the global pause, close every driver, sleep it out,
      -- then clear the counter and the pause flag
      let pause_seconds : ℚ := 60 + cnt * 20
      let paused : BreakerState :=
        { errno11_count := cnt, global_pause := true,
          global_pause_until := now + pause_seconds }
      let final : BreakerState :=
        { paused with errno11_count := 0, global_pause := false }
      { pausedState := some paused, state := final,
        backoff_seconds := pause_seconds, closed_all_drivers := true,
        skipped := max_retries ≤ retry_count,
        update :=
          if has_url_id then
            some (if max_retries ≤ retry_count then
              { processing_status := some "failed", success := some false,
                products_found := some 0, products_saved := some 0,
                error_message := some ("Skipped after " ++ toString retry_count ++ " retries: " ++ error_message),
                retry_count := some retry_count, clear_claim := true }
            else mark_for_retry retry_count (some error_message) max_retries)
          else Option.none }
    else
      let backoff : ℚ := 5 + retry_count * 2
      { pausedState := Option.none,
        state := { st with errno11_count := cnt },
        backoff_seconds := backoff, closed_all_drivers := false,
        skipped := max_retries ≤ retry_count,
        update :=
          if has_url_id then
            some (if max_retries ≤ retry_count then
              { processing_status := some "failed", success := some false,
                products_found := some 0, products_saved := some 0,
                error_message := some ("Skipped after " ++ toString retry_count ++ " retries: " ++ error_message),
                retry_count := some retry_count, clear_claim := true }
            else mark_for_retry retry_count (some error_message) max_retries)
          else Option.none }
  else
    -- non-Errno-11 exception: reset the counter, no sleep, surface at once
    { pausedState := Option.none,
      state := { st with errno11_count := 0 },
      backoff_seconds := 0, closed_all_drivers := false,
      skipped := false,
      update :=
        if has_url_id then some (mark_for_retry retry_count (some error_message) max_retries)
        else Option.none }

/-- Counter reset on a successful result (lines 2244-2246). -/
def handleSuccess (st : BreakerState) : BreakerState :=
  { st with errno11_count := 0 }

/-- The success-path row update (lines 2256-2265). -/
def successUpdateArgs (attempt_count : ℤ) (found saved : Option ℤ) : UpdateArgs :=
  { processing_status := some "completed", success := some true,
    products_found := found, products_saved := saved,
    error_message := Option.none, retry_count := some attempt_count,
    clear_claim := true }

/-- The returned-failure row update (lines 2266-2281): retry when
`_should_retry attempt_count max_retries`, else terminal failure. -/
def resultFailureArgs (attempt_count retry_count max_retries : ℤ)
    (found saved : Option ℤ) (error_message : Option String) : UpdateArgs :=
  if should_retry attempt_count max_retries then
    mark_for_retry retry_count error_message max_retries
  else
    { processing_status := some "failed", success := some false,
      products_found := found, products_saved := saved,
      error_message := error_message, retry_count := some attempt_count,
      clear_claim := true }

/-- Every `UpdateArgs` the worker can pass to `_update_url_status`:
the success path, the Errno-11 skip path, either failure path's
`_mark_for_retry`, and the returned-failure terminal path. -/
inductive WorkerWrite where
  | succeeded (attempt_count : ℤ) (found saved : Option ℤ)
  | exceptionPath (st : BreakerState) (now : ℚ) (isErrno11 : Bool)
      (retry_count max_retries : ℤ) (error_message : String)
      (u : UpdateArgs)
      (h : (handleException st now isErrno11 retry_count max_retries true
        error_message).update = some u)
  | resultFailure (attempt_count retry_count max_retries : ℤ)
      (found saved : Option ℤ) (error_message : Option String)

/-- The arguments a `WorkerWrite` passes to `_update_url_status`. -/
def workerWriteArgs : WorkerWrite → UpdateArgs
  | WorkerWrite.succeeded ac found saved => successUpdateArgs ac found saved
  | WorkerWrite.exceptionPath _ _ _ _ _ _ u _ => u
  | WorkerWrite.resultFailure ac rc mr found saved em =>
    resultFailureArgs ac rc mr found saved em

/-!
## Price parsing (`UniversalProductExtractor._parse_price`)

Currency detection scans for symbol/keyword substrings (the four INR
checks first, then USD/EUR/GBP/CAD/AUD); the numeric value is the first
contiguous run of `[0-9,.]` with commas stripped, fed to `float`.
-/

/-- Substring containment (`needle in haystack` on Python strings). -/
def hasSub (hay sub : List Char) : Bool :=
  if sub.isPrefixOf hay then true
  else match hay with
    | [] => sub.isEmpty
    | _ :: rest => hasSub rest sub

def hasSubStr (hay sub : String) : Bool := hasSub hay.toList sub.toList

/-- A character the regex class `[\d,.]` accepts. -/
def isNumRunChar (c : Char) : Bool := c.isDigit || c == ',' || c == '.'

/-- `re.findall(r"[\d,.]+", txt)[0]`: the first contiguous run. -/
def firstNumRun (cs : List Char) : List Char :=
  (cs.dropWhile (fun c => !isNumRunChar c)).takeWhile isNumRunChar

/-- The currency-detection chain of `_parse_price` (the INR checks run
first; `$`, `€`, `£` are looked up in the original-case text, keywords in
the lowercased text). -/
def currencyOf (txt : List Char) : Option String :=
  let lowered := txt.map Char.toLower
  if hasSub lowered ['₹'] || hasSub lowered ['r', 's'] ||
      hasSub lowered ['r', 's', '.'] || hasSub lowered ['i', 'n', 'r'] then
    some "INR"
  else if hasSub txt ['$'] || hasSub lowered ['u', 's', 'd'] then some "USD"
  else if hasSub txt ['€'] || hasSub lowered ['e', 'u', 'r'] then some "EUR"
  else if hasSub txt ['£'] || hasSub lowered ['g', 'b', 'p'] then some "GBP"
  else if hasSub lowered ['c', 'a', 'd'] then some "CAD"
  else if hasSub lowered ['a', 'u', 'd'] then some "AUD"
  else Option.none

/-- `_parse_price`: returns `(price, currency)`. -/
def parse_price (raw : Option String) : Option ℚ × Option String :=
  match raw with
  | Option.none => (Option.none, Option.none)
  | some raw =>
    if raw = "" then (Option.none, Option.none)
    else
      let txt := pyStrip raw.toList
      let currency := currencyOf txt
      let run := firstNumRun txt
      if run.isEmpty then (Option.none, currency)
      else
        let num := run.filter (fun c => !(c == ','))
        match pyFloatString (String.mk num) with
        | some q => (some q, currency)
        | Option.none => (Option.none, currency)

/-- Modelled from the spec: the canonical formatted form of an amount in
each supported currency — symbol immediately preceding the numeral for
INR/USD/EUR/GBP, uppercase code and a space for CAD/AUD (the only forms
the extraction regex `(₹|rs\.?|…|cad |aud |£|€|\$)\s*[\d,.]+` accepts for
those currencies). -/
def currencyMark (c : String) : List Char :=
  if c = "INR" then ['₹']
  else if c = "USD" then ['$']
  else if c = "EUR" then ['€']
  else if c = "GBP" then ['£']
  else if c = "CAD" then ['C', 'A', 'D', ' ']
  else if c = "AUD" then ['A', 'U', 'D', ' ']
  else []

/-- The ten decimal digit characters. -/
def decDigits : List Char := ['0', '1', '2', '3', '4', '5', '6', '7', '8', '9']

/-- Modelled from the spec: digit groups joined with comma separators. -/
def joinGroups : List (List Char) → List Char
  | [] => []
  | [g] => g
  | g :: rest => g ++ ',' :: joinGroups rest

/-- The rendered fractional part: a dot and the digits, or nothing. -/
def fracPart : Option (List Char) → List Char
  | some f => '.' :: f
  | Option.none => []

/-- The value of the fractional part. -/
def fracValue : Option (List Char) → ℚ
  | some f => (natOfDigits f : ℚ) / 10 ^ f.length
  | Option.none => 0

/-- Modelled from the spec: canonical rendering of an amount whose
integer digits are grouped with commas, with an optional fractional
part. -/
def renderGrouped (groups : List (List Char)) (frac : Option (List Char)) : List Char :=
  joinGroups groups ++ fracPart frac

/-- Modelled from the spec: `fmt(n, c)` — the canonical string for the
amount `n` (given by its digit groups) in currency `c`. -/
def fmt_price (groups : List (List Char)) (frac : Option (List Char))
    (c : String) : String :=
  String.mk (currencyMark c ++ renderGrouped groups frac)

/-- The rational an integer-digit/fraction-digit numeral denotes. -/
def numeralValue (groups : List (List Char)) (frac : Option (List Char)) : ℚ :=
  natOfDigits groups.flatten + fracValue frac

/-- Well-formed numeral: at least one digit group, every group non-empty
and all decimal digits, fractional part (when present) non-empty and all
decimal digits. -/
def ValidNumeral (groups : List (List Char)) (frac : Option (List Char)) : Prop :=
  groups ≠ [] ∧ (∀ g ∈ groups, g ≠ [] ∧ ∀ ch ∈ g, ch ∈ decDigits) ∧
    (∀ f, frac = some f → f ≠ [] ∧ ∀ ch ∈ f, ch ∈ decDigits)

/-- C6 counterexample input: two records sharing a url, where the first
record's `title` is present but empty (`""`, non-null) and the second's
is `"A"`. -/
def dupFirst : PDict := [("product_url", Val.str "u"), ("title", Val.str "")]

def dupSecond : PDict := [("product_url", Val.str "u"), ("title", Val.str "A")]

/-!
## Validation (`UniversalProductExtractor._is_valid_product`)

The three link/title heuristics and `_clean_text` are parameters: the
claims settled here depend only on the presence checks, which are proved
for every instantiation of the heuristics.
-/

/-- Python truthiness of the cleaned title. -/
def titleTruthy : Option String → Bool
  | some t => !(t == "")
  | Option.none => false

/-- `_is_valid_product`, with the pure string heuristics abstracted. -/
def is_valid_product (isBlacklistedLink : Val → Bool)
    (isProductLikePath : Val → String → Bool)
    (looksLikePhoneOrNav : String → Bool)
    (cleanText : String → Option String)
    (product : PDict) (base_url : String) : Bool :=
  let url := dictGet product "product_url"
  let title : Option String :=
    if (dictGet product "title").truthy then
      match dictGet product "title" with
      | Val.str s => cleanText s
      | _ => Option.none
    else Option.none
  if !url.truthy then false
  else if isBlacklistedLink url then false
  else if !(isProductLikePath url base_url) &&
      !((dictGet product "price").truthy && titleTruthy title) then false
  else if (match title with
    | some t => !(t == "") && (looksLikePhoneOrNav t || t.length < 2)
    | Option.none => false) then false
  else if !(titleTruthy title) && !(dictGet product "price").truthy &&
      !(dictGet product "raw_price").truthy then false
  else true

/-!
## Claims about the product store
-/

/-- Modelled from the spec/claim wording for C5: "current_price is
clamped to the interval [0, 999_999_999.99]". -/
def clampPriceClaim (q : ℚ) : ℚ := max 0 (min q maxPrice)

def negPriceCandidate : PDict :=
  [("title", Val.str "X"), ("product_url", Val.str "/p/x"), ("price", Val.num (-5))]

/-- The row-level invariant: an inserted row is in range and carries the
required fields. -/
def RowOk (row : DbRow) : Prop :=
  (∀ q, row.current_price = some q → 0 ≤ q ∧ q ≤ maxPrice) ∧
  (∀ q, row.rating = some q → 0 ≤ q ∧ q ≤ 100) ∧
  (∀ n, row.reviews = some n → 0 ≤ n) ∧
  row.product_name.truthy = true ∧ row.product_url.truthy = true

@[simp] theorem Val.truthy_none : Val.truthy Val.none = false := rfl

theorem dictGet_nil (k : String) : dictGet [] k = Val.none := rfl

theorem dictGet_cons (e : String × Val) (rest : PDict) (k : String) :
    dictGet (e :: rest) k = if e.1 = k then e.2 else dictGet rest k := by
  simp only [dictGet, List.find?]
  by_cases h : e.1 = k
  · simp [h]
  · simp only [beq_iff_eq, h, if_false]
    have hb : (e.1 == k) = false := by simp [h]
    rw [hb]

theorem dictGet_set_self (d : PDict) (k : String) (v : Val) :
    dictGet (dictSet d k v) k = v := by
  induction d with
  | nil => simp [dictSet, dictGet_cons]
  | cons e rest ih =>
    by_cases h : e.1 = k
    · simp [dictSet, h, dictGet_cons]
    · simp only [dictSet, beq_iff_eq, h, if_false]
      rw [dictGet_cons, if_neg h]
      exact ih

theorem dictGet_set_ne (d : PDict) (k k' : String) (v : Val) (h : k ≠ k') :
    dictGet (dictSet d k v) k' = dictGet d k' := by
  induction d with
  | nil => simp [dictSet, dictGet_cons, h, dictGet_nil]
  | cons e rest ih =>
    by_cases he : e.1 = k
    · simp only [dictSet, beq_iff_eq, he, if_true]
      rw [dictGet_cons, dictGet_cons, if_neg h, he, if_neg h]
    · simp only [dictSet, beq_iff_eq, he, if_false]
      rw [dictGet_cons, dictGet_cons]
      by_cases h2 : e.1 = k'
      · simp [h2]
      · simp only [h2, if_false]; exact ih

theorem dictGet_eq_none_of_not_mem (d : PDict) (k : String)
    (h : k ∉ d.map Prod.fst) : dictGet d k = Val.none := by
  induction d with
  | nil => rfl
  | cons e rest ih =>
    rw [dictGet_cons]
    simp only [List.map_cons, List.mem_cons] at h
    push_neg at h
    rw [if_neg (fun he => h.1 he.symm)]
    exact ih h.2

theorem lookupA_append (xs ys : List (Val × PDict)) (u : Val) :
    lookupA (xs ++ ys) u = ((lookupA xs u).or (lookupA ys u)) := by
  induction xs with
  | nil => simp [lookupA]
  | cons e rest ih =>
    by_cases h : e.1 = u
    · simp [lookupA, h]
    · simp [lookupA, h, ih]

theorem lookupA_updateA (agg : List (Val × PDict)) (u u' : Val) (p : PDict) :
    lookupA (updateA agg u p) u' =
      if u = u' then (lookupA agg u').map (fun ex => mergeInto ex p)
      else lookupA agg u' := by
  induction agg with
  | nil => by_cases h : u = u' <;> simp [updateA, lookupA, h]
  | cons e rest ih =>
    by_cases he : e.1 = u
    · by_cases hu : u = u'
      · simp [updateA, lookupA, he, hu]
      · have : ¬ e.1 = u' := by rw [he]; exact hu
        simp [updateA, lookupA, he, hu, this]
    · by_cases he' : e.1 = u'
      · have hu : ¬ u = u' := by rw [← he']; exact fun h => he h.symm
        have hu2 : ¬ u' = u := fun h => hu h.symm
        simp [updateA, lookupA, he, he', hu, hu2]
      · simp [updateA, lookupA, he, he', ih]

theorem groupOf_cons (u : Val) (p : PDict) (rest : List PDict) :
    groupOf u (p :: rest) =
      if dictGet p "product_url" = u then p :: groupOf u rest
      else groupOf u rest := by
  by_cases h : dictGet p "product_url" = u <;> simp [groupOf, List.filter, h]

/-- Characterisation of the `aggregated` map produced by the loop: the
record held for a truthy url `u` is the fold of `mergeInto` over the group
of `u` in the remaining input, seeded either by the record already held or
by the first group member. -/
theorem dedupeGo_lookup (ps : List PDict) : ∀ (agg : List (Val × PDict))
    (order : List Val) (u : Val), u.truthy = true →
    lookupA (dedupeGo agg order ps).1 u =
      match lookupA agg u with
      | some ex => some ((groupOf u ps).foldl mergeInto ex)
      | Option.none =>
        if groupOf u ps = [] then Option.none else some (mergeGroup (groupOf u ps)) := by
  induction ps with
  | nil =>
    intro agg order u _
    cases h : lookupA agg u <;> simp [dedupeGo, groupOf, h]
  | cons p rest ih =>
    intro agg order u hu
    by_cases hpu : (dictGet p "product_url").truthy
    · rw [groupOf_cons]
      by_cases heq : dictGet p "product_url" = u
      · -- the head record belongs to the group of u
        rw [if_pos heq]
        cases hl : lookupA agg u with
        | some ex =>
          have hl' : lookupA agg (dictGet p "product_url") = some ex := by
            rw [heq]; exact hl
          simp only [dedupeGo, hpu, if_true, hl']
          rw [ih _ _ u hu]
          rw [lookupA_updateA, if_pos heq, hl]
          simp [List.foldl_cons]
        | none =>
          have hl' : lookupA agg (dictGet p "product_url") = Option.none := by
            rw [heq]; exact hl
          simp only [dedupeGo, hpu, if_true, hl']
          rw [ih _ _ u hu]
          rw [lookupA_append, hl]
          simp only [Option.none_or, lookupA, heq, if_pos rfl]
          simp [mergeGroup]
      · rw [if_neg heq]
        cases hl : lookupA agg u with
        | some ex =>
          cases hl2 : lookupA agg (dictGet p "product_url") with
          | some ex2 =>
            simp only [dedupeGo, hpu, if_true, hl2]
            rw [ih _ _ u hu, lookupA_updateA, if_neg heq, hl]
          | none =>
            simp only [dedupeGo, hpu, if_true, hl2]
            rw [ih _ _ u hu, lookupA_append, hl]
            simp
        | none =>
          cases hl2 : lookupA agg (dictGet p "product_url") with
          | some ex2 =>
            simp only [dedupeGo, hpu, if_true, hl2]
            rw [ih _ _ u hu, lookupA_updateA, if_neg heq, hl]
          | none =>
            simp only [dedupeGo, hpu, if_true, hl2]
            rw [ih _ _ u hu, lookupA_append, hl]
            simp only [Option.none_or, lookupA]
            rw [if_neg heq]
    · -- falsy url: the record is dropped, and it cannot belong to the group
      have hne : dictGet p "product_url" ≠ u := by
        intro h; rw [h] at hpu; exact hpu hu
      rw [groupOf_cons, if_neg hne]
      simp only [dedupeGo]
      rw [if_neg (by simp_all)]
      exact ih _ _ u hu

theorem dedupeGo_order (ps : List PDict) : ∀ (agg : List (Val × PDict))
    (order : List Val),
    (dedupeGo agg order ps).2 =
      order ++ (firstOccUrls ps).filter (fun u => (lookupA agg u).isNone) := by
  induction ps with
  | nil => intro agg order; simp [dedupeGo, firstOccUrls]
  | cons p rest ih =>
    intro agg order
    by_cases hpu : (dictGet p "product_url").truthy
    · simp only [firstOccUrls, hpu, if_true]
      cases hl : lookupA agg (dictGet p "product_url") with
      | none =>
        simp only [dedupeGo, hpu, if_true, hl]
        rw [ih]
        rw [List.filter_cons_of_pos (by simp [hl])]
        rw [List.append_assoc, List.singleton_append]
        congr 1
        congr 1
        rw [List.filter_filter]
        refine List.filter_congr (fun v _ => ?_)
        rw [lookupA_append]
        by_cases hv : v = dictGet p "product_url"
        · subst hv; simp [hl, lookupA]
        · have : ¬ dictGet p "product_url" = v := fun h => hv h.symm
          simp only [lookupA, this, if_false, decide_not]
          cases lookupA agg v <;> simp [hv]
      | some ex =>
        simp only [dedupeGo, hpu, if_true, hl]
        rw [ih]
        rw [List.filter_cons_of_neg (by simp [hl])]
        congr 1
        rw [List.filter_filter]
        refine List.filter_congr (fun v _ => ?_)
        rw [lookupA_updateA]
        by_cases hv : v = dictGet p "product_url"
        · subst hv; simp [hl]
        · have : ¬ dictGet p "product_url" = v := fun h => hv h.symm
          simp only [this, if_false, decide_not]
          cases lookupA agg v <;> simp [hv]
    · simp only [dedupeGo, firstOccUrls]
      rw [if_neg (by simp_all), if_neg (by simp_all)]
      exact ih agg order

theorem firstOccUrls_truthy (ps : List PDict) :
    ∀ u ∈ firstOccUrls ps, u.truthy = true := by
  induction ps with
  | nil => intro u h; simp [firstOccUrls] at h
  | cons p rest ih =>
    intro u h
    by_cases hpu : (dictGet p "product_url").truthy
    · simp only [firstOccUrls, hpu, if_true, List.mem_cons] at h
      rcases h with h | h
      · rw [h]; exact hpu
      · exact ih u (List.mem_of_mem_filter h)
    · simp only [firstOccUrls] at h
      rw [if_neg (by simp_all)] at h
      exact ih u h

theorem groupOf_ne_nil_of_mem_firstOccUrls (ps : List PDict) :
    ∀ u ∈ firstOccUrls ps, groupOf u ps ≠ [] := by
  induction ps with
  | nil => intro u h; simp [firstOccUrls] at h
  | cons p rest ih =>
    intro u h
    by_cases hpu : (dictGet p "product_url").truthy
    · simp only [firstOccUrls, hpu, if_true, List.mem_cons] at h
      rcases h with h | h
      · rw [groupOf_cons, if_pos h.symm]; simp
      · have hu : u ∈ firstOccUrls rest := List.mem_of_mem_filter h
        rw [groupOf_cons]
        by_cases heq : dictGet p "product_url" = u
        · rw [if_pos heq]; simp
        · rw [if_neg heq]; exact ih u hu
    · simp only [firstOccUrls] at h
      rw [if_neg (by simp_all)] at h
      rw [groupOf_cons]
      by_cases heq : dictGet p "product_url" = u
      · rw [if_pos heq]; simp
      · rw [if_neg heq]; exact ih u h

/-- `_dedupe_by_url` factored: one output record per distinct truthy url,
in first-occurrence order, each being its group's first record with later
group members merged in. -/
theorem dedupe_by_url_eq_map (ps : List PDict) :
    dedupe_by_url ps = (firstOccUrls ps).map (fun u => mergeGroup (groupOf u ps)) := by
  show ((dedupeGo [] [] ps).2.map (fun u => (lookupA (dedupeGo [] [] ps).1 u).getD []))
      = (firstOccUrls ps).map (fun u => mergeGroup (groupOf u ps))
  rw [dedupeGo_order]
  simp only [lookupA, Option.isNone_none, List.filter_true, List.nil_append]
  refine List.map_congr_left (fun u hu => ?_)
  rw [dedupeGo_lookup ps [] [] u (firstOccUrls_truthy ps u hu)]
  simp only [lookupA]
  rw [if_neg (groupOf_ne_nil_of_mem_firstOccUrls ps u hu)]
  rfl

/-- Per-key behaviour of the collision merge on real dicts (no duplicate
keys): a truthy slot of `existing` is never overwritten; a falsy slot is
filled by `p`'s value exactly when that value is truthy; the `_element`
key is never copied. -/
theorem dictGet_mergeInto (p : PDict) : ∀ (ex : PDict) (k : String),
    keysNodup p →
    dictGet (mergeInto ex p) k =
      if k ≠ "_element" ∧ (dictGet ex k).truthy = false ∧ (dictGet p k).truthy = true
      then dictGet p k else dictGet ex k := by
  induction p with
  | nil =>
    intro ex k _
    rw [if_neg (by simp [dictGet_nil, Val.truthy])]
    rfl
  | cons e rest ih =>
    intro ex k hnd
    have hsplit : e.1 ∉ rest.map Prod.fst ∧ (rest.map Prod.fst).Nodup := by
      rw [keysNodup, List.map_cons, List.nodup_cons] at hnd
      exact hnd
    have hnd' : keysNodup rest := hsplit.2
    have hmem : e.1 ∉ rest.map Prod.fst := hsplit.1
    have hstep : mergeInto ex (e :: rest) =
        mergeInto (if e.1 == "_element" then ex
          else if e.2.truthy && !(dictGet ex e.1).truthy then dictSet ex e.1 e.2
          else ex) rest := by
      simp [mergeInto, List.foldl_cons]
    rw [hstep, ih _ k hnd', dictGet_cons e rest k]
    by_cases hk : e.1 = k
    · -- `k` is the head key; `rest` holds no entry for it
      subst hk
      have hrk : dictGet rest e.1 = Val.none :=
        dictGet_eq_none_of_not_mem rest e.1 hmem
      rw [hrk]
      by_cases helem : e.1 = "_element"
      · simp [helem]
      · by_cases ht : e.2.truthy = true
        · by_cases hext : (dictGet ex e.1).truthy = true
          · simp [helem, ht, hext]
          · have hext' : (dictGet ex e.1).truthy = false := by simpa using hext
            simp [helem, ht, hext', dictGet_set_self]
        · have ht' : e.2.truthy = false := by simpa using ht
          simp [helem, ht']
    · -- `k` differs from the head key: the head step leaves slot `k` alone
      have hex : dictGet (if e.1 == "_element" then ex
          else if e.2.truthy && !(dictGet ex e.1).truthy then dictSet ex e.1 e.2
          else ex) k = dictGet ex k := by
        by_cases helem : e.1 = "_element"
        · rw [if_pos (show (e.1 == "_element") = true by simp [helem])]
        · rw [if_neg (show ¬ (e.1 == "_element") = true by simp [helem])]
          by_cases hcopy : (e.2.truthy && !(dictGet ex e.1).truthy) = true
          · rw [if_pos hcopy, dictGet_set_ne _ _ _ _ hk]
          · rw [if_neg hcopy]
      rw [if_neg hk, hex]

/-- The value kept for key `k` after merging a whole url group: the first
truthy value of `k` over the group, else the first record's value. -/
theorem foldl_mergeInto_get (g : List PDict) : ∀ (acc : PDict) (k : String),
    (∀ p ∈ g, keysNodup p) → k ≠ "_element" →
    dictGet (g.foldl mergeInto acc) k =
      if (dictGet acc k).truthy then dictGet acc k
      else (((g.map (fun p => dictGet p k)).filter Val.truthy).head?).getD (dictGet acc k) := by
  induction g with
  | nil =>
    intro acc k _ _
    by_cases h : (dictGet acc k).truthy <;> simp [h]
  | cons p rest ih =>
    intro acc k hnd hk
    rw [List.foldl_cons,
      ih (mergeInto acc p) k (fun q hq => hnd q (List.mem_cons_of_mem p hq)) hk,
      dictGet_mergeInto p acc k (hnd p (List.mem_cons_self p rest))]
    by_cases hacc : (dictGet acc k).truthy = true
    · simp [hacc]
    · have hacc' : (dictGet acc k).truthy = false := by simpa using hacc
      by_cases hp : (dictGet p k).truthy = true
      · simp [hk, hacc', hp, List.filter_cons]
      · have hp' : (dictGet p k).truthy = false := by simpa using hp
        simp [hacc', hp', List.filter_cons]

theorem dictGet_mergeGroup (p : PDict) (rest : List PDict) (k : String)
    (hnd : ∀ q ∈ p :: rest, keysNodup q) (hk : k ≠ "_element") :
    dictGet (mergeGroup (p :: rest)) k =
      ((((p :: rest).map (fun q => dictGet q k)).filter Val.truthy).head?).getD
        (dictGet p k) := by
  have h := foldl_mergeInto_get rest p k (fun q hq => hnd q (List.mem_cons_of_mem p hq)) hk
  rw [mergeGroup, h]
  by_cases hp : (dictGet p k).truthy
  · simp [List.filter_cons, hp]
  · simp [List.filter_cons, hp]

theorem roundHalfEven_nonneg (q : ℚ) (h : 0 ≤ q) : 0 ≤ roundHalfEven q := by
  have hf : (0 : ℤ) ≤ ⌊q⌋ := Int.le_floor.mpr (by exact_mod_cast h)
  unfold roundHalfEven
  dsimp only
  split
  · exact hf
  · split
    · omega
    · split <;> omega

theorem roundHalfEven_le (q : ℚ) (n : ℤ) (h : q ≤ n) : roundHalfEven q ≤ n := by
  have hf : ⌊q⌋ ≤ n := by
    have := Int.floor_le_floor (α := ℚ) h
    simpa using this
  unfold roundHalfEven
  dsimp only
  by_cases h1 : q - ⌊q⌋ < 1/2
  · simp only [h1, if_true]; exact hf
  · rw [if_neg h1]
    have hlt : ⌊q⌋ < n := by
      rcases lt_or_eq_of_le hf with hlt | heq
      · exact hlt
      · exfalso
        push_neg at h1
        have hfl : (⌊q⌋ : ℚ) ≤ q := Int.floor_le q
        have hq : q - ⌊q⌋ ≤ 0 := by
          have : q ≤ (⌊q⌋ : ℚ) := by rw [heq]; exact h
          linarith
        linarith [h1]
    split
    · omega
    · split <;> omega

theorem round2_nonneg (q : ℚ) (h : 0 ≤ q) : 0 ≤ round2 q := by
  unfold round2
  have := roundHalfEven_nonneg (q * 100) (by positivity)
  positivity

theorem round2_le (q : ℚ) (n : ℤ) (h : q ≤ (n : ℚ) / 100) :
    round2 q ≤ (n : ℚ) / 100 := by
  unfold round2
  have h1 : q * 100 ≤ (n : ℚ) := by linarith
  have h2 := roundHalfEven_le (q * 100) n h1
  have h3 : ((roundHalfEven (q * 100) : ℤ) : ℚ) ≤ (n : ℚ) := by exact_mod_cast h2
  linarith

theorem saveStep_saved_le (dbo : ℕ → InsertOutcome) (pu : String)
    (ptid spid : Option ℤ) (st : SaveState) (product : PDict) :
    (saveStep dbo pu ptid spid st product).saved_count ≤ st.saved_count + 1 := by
  unfold saveStep
  dsimp only
  split
  · simp
  · split <;> simp

theorem saveFold_saved_le (dbo : ℕ → InsertOutcome) (pu : String)
    (ptid spid : Option ℤ) (products : List PDict) : ∀ (st : SaveState),
    (products.foldl (saveStep dbo pu ptid spid) st).saved_count ≤
      st.saved_count + products.length := by
  induction products with
  | nil => intro st; simp
  | cons p rest ih =>
    intro st
    rw [List.foldl_cons]
    calc (rest.foldl (saveStep dbo pu ptid spid) (saveStep dbo pu ptid spid st p)).saved_count
        ≤ (saveStep dbo pu ptid spid st p).saved_count + rest.length := ih _
      _ ≤ (st.saved_count + 1) + rest.length := by
          have := saveStep_saved_le dbo pu ptid spid st p; omega
      _ = st.saved_count + (rest.length + 1) := by omega
      _ = st.saved_count + (p :: rest).length := by simp

/-- `saved_count` never exceeds the number of candidates passed in. -/
theorem save_saved_le_length (dbo : ℕ → InsertOutcome) (products : List PDict)
    (pu plat : String) (ptid spid : Option ℤ) :
    (save_products_to_db dbo products pu plat ptid spid).saved_count ≤
      products.length := by
  unfold save_products_to_db
  split
  · simp
  · have := saveFold_saved_le dbo pu ptid spid products ⟨0, 0, [], 0⟩
    simpa using this

theorem chainSelect_eq_cascade (s1 s2 s3 s4 s5 s6 : List PDict) :
    chainSelect s1 s2 s3 s4 s5 s6 =
      (cascadeWithCount [s1, s2, s3, s4, s5, s6]).1 := by
  by_cases h1 : s1.isEmpty
  · by_cases h2 : s2.isEmpty
    · by_cases h3 : s3.isEmpty
      · by_cases h4 : s4.isEmpty
        · by_cases h5 : s5.isEmpty
          · by_cases h6 : s6.isEmpty
            · have h6' : s6 = [] := List.isEmpty_iff.mp h6
              simp [chainSelect, cascadeWithCount, h1, h2, h3, h4, h5, h6, h6']
            · simp [chainSelect, cascadeWithCount, h1, h2, h3, h4, h5, h6]
          · simp [chainSelect, cascadeWithCount, h1, h2, h3, h4, h5]
        · simp [chainSelect, cascadeWithCount, h1, h2, h3, h4]
      · simp [chainSelect, cascadeWithCount, h1, h2, h3]
    · simp [chainSelect, cascadeWithCount, h1, h2]
  · simp [chainSelect, cascadeWithCount, h1]

/-- The cascade picks the first non-empty strategy result and invokes
exactly the strategies up to and including it. -/
theorem cascadeWithCount_findIdx (ss : List (List PDict)) : ∀ (i : ℕ),
    ss.findIdx (fun s => !s.isEmpty) = i → i < ss.length →
    (cascadeWithCount ss).1 = ss.getD i [] ∧
    (cascadeWithCount ss).2 = i + 1 ∧ ss.getD i [] ≠ [] := by
  induction ss with
  | nil => intro i _ hi; simp at hi
  | cons s rest ih =>
    intro i hfind hi
    by_cases hs : s.isEmpty
    · have hfind' : rest.findIdx (fun s => !s.isEmpty) = i - 1 ∧ 1 ≤ i := by
        rw [List.findIdx_cons] at hfind
        simp only [hs, Bool.not_true, cond_false] at hfind
        omega
      have hi' : i - 1 < rest.length := by simp at hi; omega
      obtain ⟨h1, h2, h3⟩ := ih (i - 1) hfind'.1 hi'
      have hgd : (s :: rest).getD i [] = rest.getD (i - 1) [] := by
        have : i = (i - 1) + 1 := by omega
        rw [this]; simp [List.getD_cons_succ]
      refine ⟨?_, ?_, ?_⟩
      · simp only [cascadeWithCount, hs, if_true]
        rw [hgd]; exact h1
      · simp only [cascadeWithCount, hs, if_true]
        have : i = (i - 1) + 1 := by omega
        omega
      · rw [hgd]; exact h3
    · have hi0 : i = 0 := by
        rw [List.findIdx_cons] at hfind
        simp only [hs, Bool.not_false, cond_true] at hfind
        omega
      subst hi0
      refine ⟨?_, ?_, ?_⟩
      · simp [cascadeWithCount, hs]
      · simp [cascadeWithCount, hs]
      · simpa [List.isEmpty_iff] using hs

theorem extract_SavedBounded (s1 s2 s3 s4 s5 s6 : List PDict)
    (noRes : Bool) (max_items : ℕ) (dbo : ℕ → InsertOutcome)
    (pu plat : String) (ptid spid : Option ℤ) :
    SavedBounded (resultOfExtract
      (extract_products s1 s2 s3 s4 s5 s6 noRes max_items dbo pu plat ptid spid)) := by
  intro _
  unfold extract_products resultOfExtract
  dsimp only
  split
  · simp
  · simp only [Option.getD_some]
    exact save_saved_le_length dbo _ pu plat ptid spid

theorem bulkFold_totals (res : List JobResult) : ∀ (init : BulkStats),
    (res.foldl bulkStep init).total_products_found =
      init.total_products_found +
        ((res.filter (fun r => r.success)).map (fun r => r.num_products.getD 0)).sum ∧
    (res.foldl bulkStep init).total_saved_to_db =
      init.total_saved_to_db +
        ((res.filter (fun r => r.success)).map (fun r => r.saved_to_db.getD 0)).sum := by
  induction res with
  | nil => intro init; simp
  | cons r rest ih =>
    intro init
    rw [List.foldl_cons]
    obtain ⟨ih1, ih2⟩ := ih (bulkStep init r)
    by_cases hs : r.success = true
    · rw [List.filter_cons_of_pos (by simp [hs])]
      constructor
      · rw [ih1]
        simp only [bulkStep, hs, if_true, List.map_cons, List.sum_cons]
        omega
      · rw [ih2]
        simp only [bulkStep, hs, if_true, List.map_cons, List.sum_cons]
        omega
    · rw [List.filter_cons_of_neg (by simp [hs])]
      constructor
      · rw [ih1]
        simp [bulkStep, hs]
      · rw [ih2]
        simp [bulkStep, hs]

/-- C7: over any `run_bulk` stats fold whose successful results come from
the extraction pipeline, `total_saved_to_db ≤ total_products_found`, and
`total_products_found` is exactly the sum of `num_products` over the
successful results; the pipeline guarantee (second conjunct) holds even
though duplicate-key inserts count toward `saved_count`, because each
candidate contributes at most one increment and `num_products` is the
length of the candidate list. -/
theorem run_bulk_totals (results : List JobResult)
    (h : ∀ r ∈ results, SavedBounded r) :
    ((runBulkStats results).total_saved_to_db ≤
        (runBulkStats results).total_products_found ∧
     (runBulkStats results).total_products_found =
       ((results.filter (fun r => r.success)).map
         (fun r => r.num_products.getD 0)).sum) ∧
    (∀ (s1 s2 s3 s4 s5 s6 : List PDict) (noRes : Bool) (mi : ℕ)
       (dbo : ℕ → InsertOutcome) (pu plat : String) (ptid spid : Option ℤ),
       SavedBounded (resultOfExtract
         (extract_products s1 s2 s3 s4 s5 s6 noRes mi dbo pu plat ptid spid))) := by
  obtain ⟨h1, h2⟩ := bulkFold_totals results ⟨results.length, 0, 0, 0, 0⟩
  constructor
  · constructor
    · show (runBulkStats results).total_saved_to_db ≤ _
      unfold runBulkStats
      rw [h1, h2]
      simp only [Nat.zero_add]
      refine List.sum_le_sum ?_
      intro r hr
      exact h r (List.mem_of_mem_filter hr) (by simpa using List.of_mem_filter hr)
    · unfold runBulkStats
      rw [h1]
      simp
  · intro s1 s2 s3 s4 s5 s6 noRes mi dbo pu plat ptid spid
    exact extract_SavedBounded s1 s2 s3 s4 s5 s6 noRes mi dbo pu plat ptid spid

/-- C7 — witness: one pipeline success and one failure. -/
theorem run_bulk_totals_witness :
    (runBulkStats [resultOfExtract (extract_products [[("product_url", Val.str "/p/x"),
        ("title", Val.str "X")]] [] [] [] [] [] false 50
        (fun _ => InsertOutcome.inserted) "" "" Option.none Option.none),
      ⟨false, Option.none, Option.none⟩]).total_saved_to_db ≤
      (runBulkStats [resultOfExtract (extract_products [[("product_url", Val.str "/p/x"),
        ("title", Val.str "X")]] [] [] [] [] [] false 50
        (fun _ => InsertOutcome.inserted) "" "" Option.none Option.none),
      ⟨false, Option.none, Option.none⟩]).total_products_found :=
  (run_bulk_totals [resultOfExtract (extract_products [[("product_url", Val.str "/p/x"),
      ("title", Val.str "X")]] [] [] [] [] [] false 50
      (fun _ => InsertOutcome.inserted) "" "" Option.none Option.none),
    ⟨false, Option.none, Option.none⟩] (by decide)).1.1

/-!
## Merge preservation lemmas and the claims about deduplication
-/

theorem dictGet_mergeInto_of_truthy (p : PDict) : ∀ (ex : PDict) (k : String),
    (dictGet ex k).truthy = true → dictGet (mergeInto ex p) k = dictGet ex k := by
  induction p with
  | nil => intro ex k _; rfl
  | cons e rest ih =>
    intro ex k h
    have hstep : mergeInto ex (e :: rest) =
        mergeInto (if e.1 == "_element" then ex
          else if e.2.truthy && !(dictGet ex e.1).truthy then dictSet ex e.1 e.2
          else ex) rest := by
      simp [mergeInto, List.foldl_cons]
    rw [hstep]
    have hex : dictGet (if e.1 == "_element" then ex
        else if e.2.truthy && !(dictGet ex e.1).truthy then dictSet ex e.1 e.2
        else ex) k = dictGet ex k := by
      by_cases helem : e.1 = "_element"
      · rw [if_pos (show (e.1 == "_element") = true by simp [helem])]
      · rw [if_neg (show ¬ (e.1 == "_element") = true by simp [helem])]
        by_cases hcopy : (e.2.truthy && !(dictGet ex e.1).truthy) = true
        · by_cases hk : e.1 = k
          · exfalso
            rw [hk] at hcopy
            simp [h] at hcopy
          · rw [if_pos hcopy, dictGet_set_ne _ _ _ _ hk]
        · rw [if_neg hcopy]

    rw [ih _ k (by rw [hex]; exact h), hex]

theorem foldl_mergeInto_of_truthy (g : List PDict) : ∀ (acc : PDict) (k : String),
    (dictGet acc k).truthy = true →
    dictGet (g.foldl mergeInto acc) k = dictGet acc k := by
  induction g with
  | nil => intro acc k _; rfl
  | cons p rest ih =>
    intro acc k h
    rw [List.foldl_cons,
      ih (mergeInto acc p) k (by rw [dictGet_mergeInto_of_truthy p acc k h]; exact h),
      dictGet_mergeInto_of_truthy p acc k h]

theorem mem_groupOf_url (u : Val) (ps : List PDict) (q : PDict)
    (h : q ∈ groupOf u ps) : dictGet q "product_url" = u := by
  have := List.of_mem_filter h
  simpa using this

theorem dedupe_by_url_url_truthy (ps : List PDict) (p : PDict)
    (hp : p ∈ dedupe_by_url ps) :
    (dictGet p "product_url").truthy = true := by
  rw [dedupe_by_url_eq_map] at hp
  obtain ⟨u, hu, hpu⟩ := List.mem_map.mp hp
  have hut : u.truthy = true := firstOccUrls_truthy ps u hu
  have hne : groupOf u ps ≠ [] := groupOf_ne_nil_of_mem_firstOccUrls ps u hu
  obtain ⟨h, t, hg⟩ : ∃ h t, groupOf u ps = h :: t := by
    cases hgr : groupOf u ps with
    | nil => exact absurd hgr hne
    | cons h t => exact ⟨h, t, rfl⟩
  have hhu : dictGet h "product_url" = u :=
    mem_groupOf_url u ps h (by rw [hg]; exact List.mem_cons_self h t)
  have : dictGet (mergeGroup (groupOf u ps)) "product_url" = u := by
    rw [hg, mergeGroup, foldl_mergeInto_of_truthy t h "product_url"
      (by rw [hhu]; exact hut), hhu]
  rw [← hpu, this]
  exact hut

/-- C6 — counterexample.  The claim says a field already present
(non-null) in the kept record is never overwritten; but `_dedupe_by_url`
overwrites the kept record's present-but-empty `title` (`""`, which is
not null) with the later occurrence's `"A"`. -/
theorem dedupe_overwrite_counterexample :
    dedupe_by_url [dupFirst, dupSecond] =
      [[("product_url", Val.str "u"), ("title", Val.str "A")]] ∧
    dictGet dupFirst "title" = Val.str "" ∧ Val.str "" ≠ Val.none := by
  refine ⟨by rfl, by rfl, by simp⟩

/-- C6 (amended): deduplication keeps one record per distinct truthy
`product_url`, in first-occurrence order; the record kept for a url group
holds, at each key other than the internal `_element`, the first *truthy*
value the group offers, falling back to the first occurrence's value —
so truthy (not merely non-null) fields are never overwritten, and falsy
slots (null, `""`, `0`, `False`) are filled by the first truthy later
value. -/
theorem dedupe_by_url_amended (ps : List PDict) (g : List PDict) (k : String)
    (hg : g ≠ []) (hnd : ∀ p ∈ g, keysNodup p) (hk : k ≠ "_element") :
    dedupe_by_url ps = (firstOccUrls ps).map (fun u => mergeGroup (groupOf u ps)) ∧
    dictGet (mergeGroup g) k =
      (((g.map (fun p => dictGet p k)).filter Val.truthy).head?).getD
        (dictGet g.headI k) ∧
    ((dictGet g.headI k).truthy = true →
      dictGet (mergeGroup g) k = dictGet g.headI k) := by
  obtain ⟨h, t, rfl⟩ : ∃ h t, g = h :: t := by
    cases g with
    | nil => exact absurd rfl hg
    | cons h t => exact ⟨h, t, rfl⟩
  refine ⟨dedupe_by_url_eq_map ps, ?_, ?_⟩
  · exact dictGet_mergeGroup h t k hnd hk
  · intro htr
    have htr' : (dictGet h k).truthy = true := htr
    show dictGet (mergeGroup (h :: t)) k = dictGet h k
    rw [mergeGroup, foldl_mergeInto_of_truthy t h k htr']

/-- C6 amended — witness (the `title` slot takes the first truthy value;
the truthy `product_url` slot of the first occurrence is preserved). -/
theorem dedupe_by_url_amended_witness :
    dedupe_by_url [dupFirst] =
      (firstOccUrls [dupFirst]).map (fun u => mergeGroup (groupOf u [dupFirst])) ∧
    dictGet (mergeGroup [dupFirst, dupSecond]) "title" =
      ((([dupFirst, dupSecond].map (fun p => dictGet p "title")).filter
        Val.truthy).head?).getD (dictGet ([dupFirst, dupSecond]).headI "title") ∧
    dictGet (mergeGroup [dupFirst, dupSecond]) "product_url" =
      dictGet ([dupFirst, dupSecond]).headI "product_url" := by
  have h1 := dedupe_by_url_amended [dupFirst] [dupFirst, dupSecond] "title"
    (by simp) (by decide) (by decide)
  have h2 := dedupe_by_url_amended [dupFirst] [dupFirst, dupSecond] "product_url"
    (by simp) (by decide) (by decide)
  exact ⟨h1.1, h1.2.1, h2.2.2 (by decide)⟩

theorem Val.ne_of_truthy (v : Val) (h : v.truthy = true) :
    v ≠ Val.none ∧ v ≠ Val.str "" := by
  constructor
  · intro he; rw [he] at h; simp at h
  · intro he; rw [he] at h; simp [Val.truthy] at h

/-- C10: every product dict in the `products` list returned by a
successful `extract_products` call has a non-null, non-empty
`product_url`: `_is_valid_product` rejects any candidate whose
`product_url` is absent (for every instantiation of its heuristics), and
`_dedupe_by_url` drops any entry whose `product_url` is falsy, so the
persistence layer's `product_url` requirement can only fail for the
empty list, never for a returned product. -/
theorem extract_products_url_invariant
    (s1 s2 s3 s4 s5 s6 : List PDict) (noRes : Bool) (maxI : ℕ)
    (dbo : ℕ → InsertOutcome) (pu plat : String) (ptid spid : Option ℤ) :
    ((extract_products s1 s2 s3 s4 s5 s6 noRes maxI dbo pu plat ptid spid).success = true ∧
     ∀ p ∈ (extract_products s1 s2 s3 s4 s5 s6 noRes maxI dbo pu plat ptid spid).products,
       dictGet p "product_url" ≠ Val.none ∧ dictGet p "product_url" ≠ Val.str "") ∧
    (∀ (bl : Val → Bool) (plp : Val → String → Bool) (nav : String → Bool)
       (ct : String → Option String) (product : PDict) (base : String),
       dictGet product "product_url" = Val.none →
       is_valid_product bl plp nav ct product base = false) ∧
    (∀ (ps : List PDict) (q : PDict), q ∈ dedupe_by_url ps →
       (dictGet q "product_url").truthy = true) := by
  refine ⟨⟨?_, ?_⟩, ?_, ?_⟩
  · unfold extract_products
    dsimp only
    split <;> rfl
  · intro p hp
    unfold extract_products at hp
    dsimp only at hp
    split at hp
    · simp at hp
    · have hp' : p ∈ dedupe_by_url (chainSelect s1 s2 s3 s4 s5 s6) := by
        dsimp only at hp
        split at hp
        · exact List.take_subset _ _ hp
        · exact hp
      exact Val.ne_of_truthy _ (dedupe_by_url_url_truthy _ p hp')
  · intro bl plp nav ct product base hurl
    unfold is_valid_product
    rw [hurl]
    simp
  · intro ps q hq
    exact dedupe_by_url_url_truthy ps q hq

/-- C10 — witness. -/
theorem extract_products_url_invariant_witness :
    dictGet [("product_url", Val.str "/p/x")] "product_url" ≠ Val.none ∧
    dictGet [("product_url", Val.str "/p/x")] "product_url" ≠ Val.str "" :=
  (extract_products_url_invariant [[("product_url", Val.str "/p/x")]]
    [] [] [] [] [] false 50 (fun _ => InsertOutcome.inserted) "" ""
    Option.none Option.none).1.2 [("product_url", Val.str "/p/x")] (by decide)

/-- C1: the strategies run in the fixed order DOM, JSON-LD, microdata,
inline JSON, global heuristic, links-with-images; a later strategy is
invoked only when every earlier one returned an empty list (the invoke
count is `i + 1` where `i` is the index of the first non-empty result),
and the returned list is exactly the deduplicated, truncated result of
that first non-empty strategy.  In particular, when the DOM strategy is
non-empty (`i = 0`) only one strategy is ever invoked. -/
theorem extract_products_first_nonempty_strategy
    (s1 s2 s3 s4 s5 s6 : List PDict) (noRes : Bool) (maxI : ℕ)
    (dbo : ℕ → InsertOutcome) (pu plat : String) (ptid spid : Option ℤ)
    (i : ℕ)
    (hfind : [s1, s2, s3, s4, s5, s6].findIdx (fun s => !s.isEmpty) = i)
    (hi : i < 6) :
    (extract_products s1 s2 s3 s4 s5 s6 noRes maxI dbo pu plat ptid spid).products =
      (dedupe_by_url ([s1, s2, s3, s4, s5, s6].getD i [])).take maxI ∧
    (cascadeWithCount [s1, s2, s3, s4, s5, s6]).2 = i + 1 := by
  obtain ⟨h1, h2, h3⟩ :=
    cascadeWithCount_findIdx [s1, s2, s3, s4, s5, s6] i hfind (by simpa using hi)
  have hchain : chainSelect s1 s2 s3 s4 s5 s6 = [s1, s2, s3, s4, s5, s6].getD i [] := by
    rw [chainSelect_eq_cascade]; exact h1
  have hne : ¬ (chainSelect s1 s2 s3 s4 s5 s6).isEmpty = true := by
    rw [hchain]
    simpa [List.isEmpty_iff] using h3
  refine ⟨?_, h2⟩
  unfold extract_products
  dsimp only
  rw [if_neg (by simp [hne])]
  dsimp only
  rw [hchain]
  set l := dedupe_by_url ([s1, s2, s3, s4, s5, s6].getD i []) with hl
  by_cases hlen : maxI < l.length
  · rw [if_pos hlen]
  · rw [if_neg hlen]
    rw [List.take_of_length_le (by omega)]

/-- C1 — witness. -/
theorem extract_products_first_nonempty_strategy_witness :
    (extract_products [] [dupSecond] [] [] [] [] false 50
        (fun _ => InsertOutcome.inserted) "" "" Option.none Option.none).products =
      (dedupe_by_url ([[], [dupSecond], [], [], [], []].getD 1 [])).take 50 ∧
    (cascadeWithCount [[], [dupSecond], [], [], [], []]).2 = 1 + 1 :=
  extract_products_first_nonempty_strategy [] [dupSecond] [] [] [] []
    false 50 (fun _ => InsertOutcome.inserted) "" "" Option.none Option.none
    1 (by decide) (by decide)

/-!
## Claims about the retry controller and the circuit breaker
-/

/-- C2 — counterexample.  With `max_retries = 3` and `retry_count = 2`
the attempt count is `3 ≤ max_retries`, so the claim requires a
transition to `retrying`; on the returned-failure path the code calls
`_should_retry(attempt_count, max_retries)` which tests
`attempt_count < max_retries` and therefore marks the row `failed`. -/
theorem retry_threshold_counterexample :
    (update_url_status
      (resultFailureArgs 3 2 3 (some 0) (some 0) (some "e"))).processing_status =
      some "failed" ∧
    ((2 : ℤ) + 1 ≤ 3) := by
  constructor
  · rfl
  · norm_num

/-- C2 (amended): on the exception path the worker retries exactly when
`attempt_count = retry_count + 1 ≤ max_retries` (incrementing
`retry_count` and clearing the claim), else fails; on the
returned-failure path (`success=false` result) it retries only when
`max_retries > 0` and `attempt_count < max_retries` — at
`attempt_count = max_retries` the row is marked `failed`, not
`retrying`.  Every one of these updates clears the claim. -/
theorem retry_transitions_amended
    (st : BreakerState) (now : ℚ) (isErr : Bool) (rc mr : ℤ) (msg : String)
    (u : UpdateArgs)
    (hu : (handleException st now isErr rc mr true msg).update = some u)
    (found saved : Option ℤ) (em : Option String) :
    (u.processing_status = some (if rc + 1 ≤ mr then "retrying" else "failed") ∧
     (rc + 1 ≤ mr → u.retry_count = some (rc + 1)) ∧
     u.clear_claim = true) ∧
    ((resultFailureArgs (rc + 1) rc mr found saved em).processing_status =
        some (if 0 < mr ∧ rc + 1 < mr then "retrying" else "failed") ∧
     (0 < mr ∧ rc + 1 < mr →
        (resultFailureArgs (rc + 1) rc mr found saved em).retry_count = some (rc + 1)) ∧
     (resultFailureArgs (rc + 1) rc mr found saved em).clear_claim = true) := by
  constructor
  · -- exception path
    unfold handleException at hu
    by_cases herr : isErr = true
    · rw [herr] at hu
      simp only [if_true] at hu
      by_cases hth : ERRNO11_THRESHOLD ≤ st.errno11_count + 1
      · rw [if_pos hth] at hu
        simp only [if_true, Option.some.injEq] at hu
        by_cases hskip : mr ≤ rc
        · rw [if_pos hskip] at hu
          have hnr : ¬ (rc + 1 ≤ mr) := by omega
          rw [← hu]
          refine ⟨by rw [if_neg hnr], by intro h; omega, rfl⟩
        · rw [if_neg hskip] at hu
          have hr : rc + 1 ≤ mr := by omega
          rw [← hu]
          unfold mark_for_retry
          refine ⟨by simp [hr], by intro _; simp, rfl⟩
      · rw [if_neg hth] at hu
        simp only [if_true, Option.some.injEq] at hu
        by_cases hskip : mr ≤ rc
        · rw [if_pos hskip] at hu
          have hnr : ¬ (rc + 1 ≤ mr) := by omega
          rw [← hu]
          refine ⟨by rw [if_neg hnr], by intro h; omega, rfl⟩
        · rw [if_neg hskip] at hu
          have hr : rc + 1 ≤ mr := by omega
          rw [← hu]
          unfold mark_for_retry
          refine ⟨by simp [hr], by intro _; simp, rfl⟩
    · have herr' : isErr = false := by
        cases isErr
        · rfl
        · exact absurd rfl herr
      rw [herr'] at hu
      simp only [Bool.false_eq_true, if_false, if_true, Option.some.injEq] at hu
      rw [← hu]
      unfold mark_for_retry
      by_cases hr : rc + 1 ≤ mr
      · refine ⟨by simp [hr], by intro _; simp, rfl⟩
      · refine ⟨by simp [hr], by intro h; exact absurd h hr, rfl⟩
  · -- returned-failure path
    unfold resultFailureArgs should_retry
    by_cases hmr : mr ≤ 0
    · have : ¬ (0 < mr ∧ rc + 1 < mr) := by omega
      rw [if_neg (by simp [hmr]), if_neg this]
      exact ⟨rfl, by intro h; exact absurd h this, rfl⟩
    · rw [if_neg hmr]
      by_cases hlt : rc + 1 < mr
      · have hpos : 0 < mr ∧ rc + 1 < mr := by omega
        rw [if_pos (by simpa using hlt), if_pos hpos]
        unfold mark_for_retry
        have hle : rc + 1 ≤ mr := by omega
        refine ⟨by simp [hle], by intro _; simp, rfl⟩
      · have hneg : ¬ (0 < mr ∧ rc + 1 < mr) := by omega
        rw [if_neg (by simpa using hlt), if_neg hneg]
        exact ⟨rfl, by intro h; exact absurd h hneg, rfl⟩

/-- C2 amended — witness (Errno-11 exception with one prior retry under
`max_retries = 3` schedules a retry; the same numbers on the
returned-failure path also retry). -/
theorem retry_transitions_amended_witness :
    (mark_for_retry 1 (some "Errno 11") 3).processing_status =
      some (if (1 : ℤ) + 1 ≤ 3 then "retrying" else "failed") ∧
    (mark_for_retry 1 (some "Errno 11") 3).retry_count = some ((1 : ℤ) + 1) ∧
    (mark_for_retry 1 (some "Errno 11") 3).clear_claim = true ∧
    (resultFailureArgs ((1 : ℤ) + 1) 1 3 (some 0) (some 0)
      (some "boom")).processing_status =
      some (if (0 : ℤ) < 3 ∧ (1 : ℤ) + 1 < 3 then "retrying" else "failed") ∧
    (resultFailureArgs ((1 : ℤ) + 1) 1 3 (some 0) (some 0)
      (some "boom")).retry_count = some ((1 : ℤ) + 1) ∧
    (resultFailureArgs ((1 : ℤ) + 1) 1 3 (some 0) (some 0)
      (some "boom")).clear_claim = true := by
  have h := retry_transitions_amended ⟨0, false, 0⟩ 100 true 1 3 "Errno 11"
    (mark_for_retry 1 (some "Errno 11") 3) (by decide)
    (some 0) (some 0) (some "boom")
  exact ⟨h.1.1, h.1.2.1 (by norm_num), h.1.2.2, h.2.1, h.2.2.1 (by norm_num),
    h.2.2.2⟩

/-- C3: every URL-row update the worker writes that sets
`processing_status` to `completed` or `failed` also writes `null` into
both `claimed_by` and `claimed_at` in the same payload. -/
theorem terminal_updates_clear_claim (w : WorkerWrite)
    (h : (update_url_status (workerWriteArgs w)).processing_status = some "completed" ∨
      (update_url_status (workerWriteArgs w)).processing_status = some "failed") :
    (update_url_status (workerWriteArgs w)).claimed_by_set_null = true ∧
    (update_url_status (workerWriteArgs w)).claimed_at_set_null = true := by
  cases w with
  | succeeded ac found saved => exact ⟨rfl, rfl⟩
  | resultFailure ac rc mr found saved em =>
    show (update_url_status (resultFailureArgs ac rc mr found saved em)).claimed_by_set_null = true ∧
      (update_url_status (resultFailureArgs ac rc mr found saved em)).claimed_at_set_null = true
    unfold resultFailureArgs
    split
    · exact ⟨rfl, rfl⟩
    · exact ⟨rfl, rfl⟩
  | exceptionPath st now isErr rc mr msg u hu =>
    show (update_url_status u).claimed_by_set_null = true ∧
      (update_url_status u).claimed_at_set_null = true
    unfold handleException at hu
    by_cases herr : isErr = true
    · rw [herr] at hu
      simp only [if_true] at hu
      by_cases hth : ERRNO11_THRESHOLD ≤ st.errno11_count + 1
      · rw [if_pos hth] at hu
        simp only [if_true, Option.some.injEq] at hu
        rw [← hu]
        split
        · exact ⟨rfl, rfl⟩
        · exact ⟨rfl, rfl⟩
      · rw [if_neg hth] at hu
        simp only [if_true, Option.some.injEq] at hu
        rw [← hu]
        split
        · exact ⟨rfl, rfl⟩
        · exact ⟨rfl, rfl⟩
    · have herr' : isErr = false := by
        cases isErr
        · rfl
        · exact absurd rfl herr
      rw [herr'] at hu
      simp only [Bool.false_eq_true, if_false, if_true, Option.some.injEq] at hu
      rw [← hu]
      exact ⟨rfl, rfl⟩

/-- C3 — witness. -/
theorem terminal_updates_clear_claim_witness :
    (update_url_status (workerWriteArgs
      (WorkerWrite.succeeded 1 (some 3) (some 3)))).claimed_by_set_null = true ∧
    (update_url_status (workerWriteArgs
      (WorkerWrite.succeeded 1 (some 3) (some 3)))).claimed_at_set_null = true :=
  terminal_updates_clear_claim (WorkerWrite.succeeded 1 (some 3) (some 3))
    (Or.inl (by decide))

/-- C4: when the consecutive Errno-11 counter reaches the threshold
(default 3) the worker publishes a global pause with deadline
`now + (60 + 20·count)`, closes every extractor's drivers, sleeps the
whole window itself, and ends with the counter at 0 and the pause
cleared; any worker entering `_run_job` while the pause is active at
time `t` before the deadline sleeps exactly until the deadline; a
successful job resets the counter to 0. -/
theorem circuit_breaker_pause (st : BreakerState) (now : ℚ) (rc mr : ℤ)
    (hid : Bool) (msg : String)
    (hcnt : ERRNO11_THRESHOLD ≤ st.errno11_count + 1) :
    (handleException st now true rc mr hid msg).pausedState =
      some ⟨st.errno11_count + 1, true,
        now + (60 + (st.errno11_count + 1) * 20)⟩ ∧
    (handleException st now true rc mr hid msg).closed_all_drivers = true ∧
    (handleException st now true rc mr hid msg).backoff_seconds =
      60 + (st.errno11_count + 1) * 20 ∧
    (handleException st now true rc mr hid msg).state.errno11_count = 0 ∧
    (handleException st now true rc mr hid msg).state.global_pause = false ∧
    (∀ (t : ℚ), t < now + (60 + (st.errno11_count + 1) * 20) →
      (pauseCheck ⟨st.errno11_count + 1, true,
          now + (60 + (st.errno11_count + 1) * 20)⟩ t).2 =
        (now + (60 + (st.errno11_count + 1) * 20)) - t) ∧
    (∀ st' : BreakerState, (handleSuccess st').errno11_count = 0) := by
  have hunfold : handleException st now true rc mr hid msg =
      { pausedState := some
          { errno11_count := st.errno11_count + 1, global_pause := true,
            global_pause_until := now + (60 + (st.errno11_count + 1) * 20) },
        state :=
          { errno11_count := 0, global_pause := false,
            global_pause_until := now + (60 + (st.errno11_count + 1) * 20) },
        backoff_seconds := 60 + (st.errno11_count + 1) * 20,
        closed_all_drivers := true,
        skipped := mr ≤ rc,
        update :=
          if hid then
            some (if mr ≤ rc then
              { processing_status := some "failed", success := some false,
                products_found := some 0, products_saved := some 0,
                error_message := some ("Skipped after " ++ toString rc ++
                  " retries: " ++ msg),
                retry_count := some rc, clear_claim := true }
            else mark_for_retry rc (some msg) mr)
          else Option.none } := by
    unfold handleException
    rw [if_pos rfl, if_pos hcnt]
    push_cast
    ring_nf
  refine ⟨?_, ?_, ?_, ?_, ?_, ?_, ?_⟩
  · rw [hunfold]
  · rw [hunfold]
  · rw [hunfold]
  · rw [hunfold]
  · rw [hunfold]
  · intro t ht
    unfold pauseCheck
    rw [if_pos ⟨rfl, ht⟩]
  · intro st'
    rfl

/-- C4 — witness: two prior consecutive errors, a third trips the
breaker; a worker checking in 10 seconds later sleeps the remaining
110 seconds of the 120-second window. -/
theorem circuit_breaker_pause_witness :
    (handleException ⟨2, false, 0⟩ 1000 true 0 3 true "Errno 11").pausedState =
      some ⟨2 + 1, true, 1000 + (60 + (2 + 1) * 20)⟩ ∧
    (pauseCheck ⟨2 + 1, true, 1000 + (60 + (2 + 1) * 20)⟩ 1010).2 =
      (1000 + (60 + (2 + 1) * 20)) - 1010 := by
  have h := circuit_breaker_pause ⟨2, false, 0⟩ 1000 0 3 true "Errno 11"
    (by norm_num [ERRNO11_THRESHOLD])
  exact ⟨h.1, h.2.2.2.2.2.1 1010 (by norm_num)⟩

/-- C8 — counterexample.  A failure of the non-Errno-11 class with
`retry_count = 1` should, per the claim, sleep `5 + 2·1 = 7` seconds
before surfacing to the retry controller; the code's backoff branch is
inside the Errno-11 handler, so the non-Errno-11 path sleeps 0 seconds
(it only resets the breaker counter and calls `_mark_for_retry` at
once). -/
theorem backoff_counterexample :
    (handleException ⟨0, false, 0⟩ 100 false 1 3 true "boom").backoff_seconds = 0 ∧
    (5 : ℚ) + 1 * 2 ≠ 0 ∧
    (handleException ⟨0, false, 0⟩ 100 false 1 3 true "boom").update =
      some (mark_for_retry 1 (some "boom") 3) := by
  refine ⟨rfl, by norm_num, rfl⟩

/-- C8 (amended): the per-URL linear backoff `5 + 2·retry_count` is
slept before surfacing only for Errno-11 / resource-unavailable failures
below the breaker threshold; failures of any other class surface to
`_mark_for_retry` immediately (backoff 0), resetting the consecutive
Errno-11 counter. -/
theorem backoff_amended (st : BreakerState) (now : ℚ) (rc mr : ℤ)
    (hid : Bool) (msg : String) :
    (st.errno11_count + 1 < ERRNO11_THRESHOLD →
      (handleException st now true rc mr hid msg).backoff_seconds = 5 + rc * 2) ∧
    (handleException st now false rc mr hid msg).backoff_seconds = 0 ∧
    (handleException st now false rc mr hid msg).state.errno11_count = 0 ∧
    ((handleException st now false rc mr hid msg).update =
      if hid then some (mark_for_retry rc (some msg) mr) else Option.none) := by
  refine ⟨?_, rfl, rfl, rfl⟩
  intro hlt
  unfold handleException
  rw [if_pos rfl, if_neg (by omega)]

/-- C8 amended — witness. -/
theorem backoff_amended_witness :
    (handleException ⟨0, false, 0⟩ 100 true 1 3 true "Errno 11").backoff_seconds =
      5 + 1 * 2 ∧
    (handleException ⟨0, false, 0⟩ 100 false 1 3 true "boom").backoff_seconds = 0 ∧
    (handleException ⟨0, false, 0⟩ 100 false 1 3 true "boom").state.errno11_count = 0 ∧
    ((handleException ⟨0, false, 0⟩ 100 false 1 3 true "boom").update =
      if true then some (mark_for_retry 1 (some "boom") 3) else Option.none) :=
  ⟨(backoff_amended ⟨0, false, 0⟩ 100 1 3 true "Errno 11").1
      (by norm_num [ERRNO11_THRESHOLD]),
   (backoff_amended ⟨0, false, 0⟩ 100 1 3 true "boom").2.1,
   (backoff_amended ⟨0, false, 0⟩ 100 1 3 true "boom").2.2.1,
   (backoff_amended ⟨0, false, 0⟩ 100 1 3 true "boom").2.2.2⟩

/-- C5 — counterexample.  A candidate with price `-5` would, by the
claim's clamping, be stored with `current_price = 0`; the code instead
nulls negative prices, so the built row carries `None`. -/
theorem price_clamp_counterexample :
    (buildDbRow "plat" Option.none Option.none negPriceCandidate).current_price =
      Option.none ∧
    clampPriceClaim (-5) = 0 ∧
    (Option.none : Option ℚ) ≠ some (clampPriceClaim (-5)) := by
  refine ⟨by decide, ?_, by simp⟩
  unfold clampPriceClaim maxPrice
  norm_num

theorem sanitizePrice_eq (v : Val) (pf : ℚ) (h : pyFloat v = some pf) :
    sanitizePrice v =
      if pf < 0 then Option.none
      else if pf > maxPrice then some maxPrice
      else some (round2 pf) := by
  cases v with
  | none => simp [pyFloat] at h
  | str s => simp only [sanitizePrice, h]
  | num q => simp only [sanitizePrice, h]
  | bool b => simp only [sanitizePrice, h]
  | elem i => simp [pyFloat] at h

theorem sanitizeRating_eq (v : Val) (rf : ℚ) (h : pyFloat v = some rf) :
    sanitizeRating v =
      if rf < 0 then some 0
      else if rf > 100 then some 100
      else some (round2 rf) := by
  cases v with
  | none => simp [pyFloat] at h
  | str s => simp only [sanitizeRating, h]
  | num q => simp only [sanitizeRating, h]
  | bool b => simp only [sanitizeRating, h]
  | elem i => simp [pyFloat] at h

theorem maxPrice_eq : maxPrice = (99999999999 : ℚ) / 100 := by
  unfold maxPrice; norm_num

theorem sanitizePrice_bounds (v : Val) (q : ℚ) (h : sanitizePrice v = some q) :
    0 ≤ q ∧ q ≤ maxPrice := by
  have key : ∀ (w : Option ℚ),
      (match w with
       | Option.none => (Option.none : Option ℚ)
       | some pf =>
         if pf < 0 then Option.none
         else if pf > maxPrice then some maxPrice
         else some (round2 pf)) = some q → 0 ≤ q ∧ q ≤ maxPrice := by
    intro w hw
    cases w with
    | none => simp at hw
    | some pf =>
      simp only at hw
      by_cases h1 : pf < 0
      · rw [if_pos h1] at hw; exact absurd hw (by simp)
      · rw [if_neg h1] at hw
        by_cases h2 : pf > maxPrice
        · rw [if_pos h2] at hw
          have : q = maxPrice := by injection hw with h'; exact h'.symm
          subst this
          constructor
          · rw [maxPrice_eq]; norm_num
          · exact le_refl _
        · rw [if_neg h2] at hw
          have : q = round2 pf := by injection hw with h'; exact h'.symm
          subst this
          push_neg at h1 h2
          constructor
          · exact round2_nonneg pf h1
          · rw [maxPrice_eq]
            exact round2_le pf 99999999999 (by rw [maxPrice_eq] at h2; exact h2)
  cases v with
  | none => simp [sanitizePrice] at h
  | str s => exact key (pyFloatString s) h
  | num q0 => exact key (some q0) h
  | bool b => exact key (some (if b then 1 else 0)) h
  | elem i => exact key Option.none h

theorem sanitizeRating_bounds (v : Val) (q : ℚ) (h : sanitizeRating v = some q) :
    0 ≤ q ∧ q ≤ 100 := by
  have key : ∀ (w : Option ℚ),
      (match w with
       | Option.none => (Option.none : Option ℚ)
       | some rf =>
         if rf < 0 then some 0
         else if rf > 100 then some 100
         else some (round2 rf)) = some q → 0 ≤ q ∧ q ≤ 100 := by
    intro w hw
    cases w with
    | none => simp at hw
    | some rf =>
      simp only at hw
      by_cases h1 : rf < 0
      · rw [if_pos h1] at hw
        have : q = 0 := by injection hw with h'; exact h'.symm
        subst this; norm_num
      · rw [if_neg h1] at hw
        by_cases h2 : rf > 100
        · rw [if_pos h2] at hw
          have : q = 100 := by injection hw with h'; exact h'.symm
          subst this; norm_num
        · rw [if_neg h2] at hw
          have : q = round2 rf := by injection hw with h'; exact h'.symm
          subst this
          push_neg at h1 h2
          refine ⟨round2_nonneg rf h1, ?_⟩
          have := round2_le rf 10000 (by norm_num; linarith)
          norm_num at this
          linarith
  cases v with
  | none => simp [sanitizeRating] at h
  | str s => exact key (pyFloatString s) h
  | num q0 => exact key (some q0) h
  | bool b => exact key (some (if b then 1 else 0)) h
  | elem i => exact key Option.none h

theorem sanitizeReviews_nonneg (v : Val) (n : ℤ) (h : sanitizeReviews v = some n) :
    0 ≤ n := by
  have key : ∀ (w : Option ℚ),
      (match w with
       | Option.none => (Option.none : Option ℤ)
       | some rq => let ri := pyIntTrunc rq; if ri < 0 then Option.none else some ri) =
        some n → 0 ≤ n := by
    intro w hw
    cases w with
    | none => simp at hw
    | some rq =>
      simp only at hw
      by_cases hr : pyIntTrunc rq < 0
      · rw [if_pos hr] at hw; exact absurd hw (by simp)
      · rw [if_neg hr] at hw
        have : n = pyIntTrunc rq := by injection hw with h'; exact h'.symm
        omega
  cases v with
  | none => simp [sanitizeReviews] at h
  | str s => exact key (pyFloatString s) h
  | num q => exact key (some q) h
  | bool b => exact key (some (if b then 1 else 0)) h
  | elem i => exact key Option.none h

theorem saveStep_rows_ok (dbo : ℕ → InsertOutcome) (pu : String)
    (ptid spid : Option ℤ) (st : SaveState) (product : PDict)
    (h : ∀ r ∈ st.insertedRows, RowOk r) :
    ∀ r ∈ (saveStep dbo pu ptid spid st product).insertedRows, RowOk r := by
  intro r hr
  unfold saveStep at hr
  dsimp only at hr
  by_cases hguard : (!(buildDbRow pu ptid spid product).product_name.truthy ||
      !(buildDbRow pu ptid spid product).product_url.truthy) = true
  · rw [if_pos hguard] at hr
    exact h r hr
  · rw [if_neg hguard] at hr
    have hname : (buildDbRow pu ptid spid product).product_name.truthy = true := by
      by_contra hc
      rw [Bool.not_eq_true] at hc
      exact hguard (by simp [hc])
    have hurl : (buildDbRow pu ptid spid product).product_url.truthy = true := by
      by_contra hc
      rw [Bool.not_eq_true] at hc
      exact hguard (by simp [hc])
    split at hr
    · -- inserted: the appended row is the sanitized build
      rcases List.mem_append.mp hr with hold | hnew
      · exact h r hold
      · have : r = buildDbRow pu ptid spid product := by simpa using hnew
        subst this
        refine ⟨?_, ?_, ?_, hname, hurl⟩
        · intro q hq; exact sanitizePrice_bounds _ q hq
        · intro q hq; exact sanitizeRating_bounds _ q hq
        · intro n hn; exact sanitizeReviews_nonneg _ n hn
    · exact h r hr
    · exact h r hr
    · exact h r hr

theorem saveFold_rows_ok (dbo : ℕ → InsertOutcome) (pu : String)
    (ptid spid : Option ℤ) (products : List PDict) : ∀ (st : SaveState),
    (∀ r ∈ st.insertedRows, RowOk r) →
    ∀ r ∈ (products.foldl (saveStep dbo pu ptid spid) st).insertedRows, RowOk r := by
  induction products with
  | nil => intro st h; exact h
  | cons p rest ih =>
    intro st h
    rw [List.foldl_cons]
    exact ih _ (saveStep_rows_ok dbo pu ptid spid st p h)

/-- C5 (amended): prices in `[0, max]` are kept (rounded to 2 decimals),
prices above the maximum are clamped down to it, but *negative* prices
are nulled rather than clamped up to 0; ratings are clamped to
`[0, 100]` and rounded; review counts are coerced through float and
negatives nulled; candidates missing `product_name` or `product_url` are
dropped without an insert.  Consequently every row inserted satisfies
`current_price ∈ [0, max] ∪ {null}`, `rating ∈ [0, 100] ∪ {null}`,
`reviews ≥ 0 ∪ {null}` and has truthy name and url. -/
theorem product_row_sanitization_amended
    (dbo : ℕ → InsertOutcome) (products : List PDict) (pu plat : String)
    (ptid spid : Option ℤ) (v : Val) (pf : ℚ) (hpf : pyFloat v = some pf) :
    (∀ r ∈ (save_products_to_db dbo products pu plat ptid spid).insertedRows,
      RowOk r) ∧
    (pf < 0 → sanitizePrice v = Option.none) ∧
    (pf > maxPrice → sanitizePrice v = some maxPrice) ∧
    (0 ≤ pf → pf ≤ maxPrice → sanitizePrice v = some (round2 pf)) ∧
    (pf < 0 → sanitizeRating v = some 0) ∧
    (pf > 100 → sanitizeRating v = some 100) ∧
    (0 ≤ pf → pf ≤ 100 → sanitizeRating v = some (round2 pf)) ∧
    (∀ (st : SaveState) (product : PDict),
      ((buildDbRow pu ptid spid product).product_name.truthy = false ∨
       (buildDbRow pu ptid spid product).product_url.truthy = false) →
      (saveStep dbo pu ptid spid st product).insertedRows = st.insertedRows ∧
      (saveStep dbo pu ptid spid st product).saved_count = st.saved_count ∧
      (saveStep dbo pu ptid spid st product).failed_count = st.failed_count + 1) := by
  refine ⟨?_, ?_, ?_, ?_, ?_, ?_, ?_, ?_⟩
  · unfold save_products_to_db
    split
    · intro r hr; simp at hr
    · exact saveFold_rows_ok dbo pu ptid spid products ⟨0, 0, [], 0⟩
        (by intro r hr; simp at hr)
  · intro h1; rw [sanitizePrice_eq v pf hpf, if_pos h1]
  · intro h2
    have hM : (0 : ℚ) < maxPrice := by rw [maxPrice_eq]; norm_num
    rw [sanitizePrice_eq v pf hpf, if_neg (by linarith), if_pos h2]
  · intro h1 h2
    rw [sanitizePrice_eq v pf hpf, if_neg (by linarith), if_neg (by linarith)]
  · intro h1; rw [sanitizeRating_eq v pf hpf, if_pos h1]
  · intro h2; rw [sanitizeRating_eq v pf hpf, if_neg (by linarith), if_pos h2]
  · intro h1 h2
    rw [sanitizeRating_eq v pf hpf, if_neg (by linarith), if_neg (by linarith)]
  · intro st product hmiss
    unfold saveStep
    dsimp only
    rw [if_pos (by rcases hmiss with h | h <;> simp [h])]
    exact ⟨rfl, rfl, rfl⟩

/-- C5 amended — witness: a negative price is nulled, an out-of-range
rating clamps to 100, and a candidate without a title is skipped
without touching the inserted rows. -/
theorem product_row_sanitization_amended_witness :
    sanitizePrice (Val.num (-3)) = Option.none ∧
    sanitizeRating (Val.num 250) = some 100 ∧
    (saveStep (fun _ => InsertOutcome.inserted) "p" Option.none Option.none
      ⟨0, 0, [], 0⟩ [("price", Val.num 5)]).insertedRows =
      (⟨0, 0, [], 0⟩ : SaveState).insertedRows := by
  refine ⟨?_, ?_, ?_⟩
  · exact (product_row_sanitization_amended (fun _ => InsertOutcome.inserted)
      [] "p" "pl" Option.none Option.none (Val.num (-3)) (-3) rfl).2.1
      (by norm_num)
  · exact (product_row_sanitization_amended (fun _ => InsertOutcome.inserted)
      [] "p" "pl" Option.none Option.none (Val.num 250) 250 rfl).2.2.2.2.2.1
      (by norm_num)
  · exact ((product_row_sanitization_amended (fun _ => InsertOutcome.inserted)
      [] "p" "pl" Option.none Option.none (Val.num 5) 5 rfl).2.2.2.2.2.2.2
      ⟨0, 0, [], 0⟩ [("price", Val.num 5)] (Or.inl (by decide))).1

/-!
## Round-trip lemmas for the price parser
-/

theorem mem_of_hasSub (hay : List Char) : ∀ (sub : List Char),
    hasSub hay sub = true → ∀ c ∈ sub, c ∈ hay := by
  induction hay with
  | nil =>
    intro sub h c hc
    unfold hasSub at h
    split at h
    · rename_i hpre
      have := List.isPrefixOf_iff_prefix.mp hpre
      have hsub : sub = [] := List.prefix_nil.mp this
      subst hsub; simp at hc
    · have hsub : sub = [] := by
        simpa [List.isEmpty_iff] using h
      subst hsub; simp at hc
  | cons x rest ih =>
    intro sub h c hc
    unfold hasSub at h
    split at h
    · rename_i hpre
      have hp := List.isPrefixOf_iff_prefix.mp hpre
      exact hp.sublist.subset hc
    · exact List.mem_cons_of_mem x (ih sub h c hc)

theorem not_hasSub_of_not_mem (hay sub : List Char) (c : Char)
    (hc : c ∈ sub) (h : c ∉ hay) : hasSub hay sub = false := by
  by_cases hs : hasSub hay sub = true
  · exact absurd (mem_of_hasSub hay sub hs c hc) h
  · simpa using hs

theorem hasSub_of_append (sub t : List Char) : hasSub (sub ++ t) sub = true := by
  unfold hasSub
  rw [if_pos (List.isPrefixOf_iff_prefix.mpr (List.prefix_append sub t))]

theorem decDigit_isDigit (c : Char) (h : c ∈ decDigits) : c.isDigit = true := by
  fin_cases h <;> decide

theorem decDigit_toLower (c : Char) (h : c ∈ decDigits) : c.toLower = c := by
  fin_cases h <;> decide

theorem decDigit_numRun (c : Char) (h : c ∈ decDigits) : isNumRunChar c = true := by
  fin_cases h <;> decide

theorem decDigit_not_ws (c : Char) (h : c ∈ decDigits) : c.isWhitespace = false := by
  fin_cases h <;> decide

theorem decDigit_ne (c t : Char) (h : c ∈ decDigits) (ht : t ∉ decDigits) :
    c ≠ t := fun he => ht (he ▸ h)

/-- Characters of a joined group list. -/
theorem mem_joinGroups (groups : List (List Char)) (c : Char)
    (h : c ∈ joinGroups groups) : c = ',' ∨ ∃ g ∈ groups, c ∈ g := by
  induction groups with
  | nil => simp [joinGroups] at h
  | cons g rest ih =>
    cases rest with
    | nil =>
      right
      exact ⟨g, List.mem_cons_self g [], by simpa [joinGroups] using h⟩
    | cons g2 rest2 =>
      rw [show joinGroups (g :: g2 :: rest2) = g ++ ',' :: joinGroups (g2 :: rest2)
          from rfl] at h
      rcases List.mem_append.mp h with h1 | h1
      · exact Or.inr ⟨g, List.mem_cons_self g _, h1⟩
      · rcases List.mem_cons.mp h1 with h2 | h2
        · exact Or.inl h2
        · rcases ih h2 with h3 | ⟨g', hg', hc⟩
          · exact Or.inl h3
          · exact Or.inr ⟨g', List.mem_cons_of_mem g hg', hc⟩

/-- Every character of a valid numeral rendering is a digit, a comma or
a dot. -/
theorem mem_renderGrouped (groups : List (List Char)) (frac : Option (List Char))
    (hv : ValidNumeral groups frac) (c : Char)
    (h : c ∈ renderGrouped groups frac) :
    c ∈ decDigits ∨ c = ',' ∨ c = '.' := by
  unfold renderGrouped at h
  rcases List.mem_append.mp h with h1 | h1
  · rcases mem_joinGroups groups c h1 with h2 | ⟨g, hg, hc⟩
    · exact Or.inr (Or.inl h2)
    · exact Or.inl ((hv.2.1 g hg).2 c hc)
  · cases hf : frac with
    | none => rw [hf] at h1; simp [fracPart] at h1
    | some f =>
      rw [hf, show fracPart (some f) = '.' :: f from rfl] at h1
      rcases List.mem_cons.mp h1 with h2 | h2
      · exact Or.inr (Or.inr h2)
      · exact Or.inl ((hv.2.2 f hf).2 c h2)

theorem numeralChar_numRun (c : Char) (h : c ∈ decDigits ∨ c = ',' ∨ c = '.') :
    isNumRunChar c = true := by
  rcases h with h | h | h
  · exact decDigit_numRun c h
  · subst h; decide
  · subst h; decide

theorem numeralChar_not_ws (c : Char) (h : c ∈ decDigits ∨ c = ',' ∨ c = '.') :
    c.isWhitespace = false := by
  rcases h with h | h | h
  · exact decDigit_not_ws c h
  · subst h; decide
  · subst h; decide

theorem numeralChar_toLower (c : Char) (h : c ∈ decDigits ∨ c = ',' ∨ c = '.') :
    c.toLower = c := by
  rcases h with h | h | h
  · exact decDigit_toLower c h
  · subst h; decide
  · subst h; decide

theorem dropWhile_cons_of_neg {p : Char → Bool} (x : Char) (xs : List Char)
    (h : p x = false) : List.dropWhile p (x :: xs) = x :: xs := by
  rw [List.dropWhile_cons, if_neg (by simp [h])]

theorem pyStrip_eq_self_of (cs : List Char) (hne : cs ≠ [])
    (hhead : ∀ x xs, cs = x :: xs → x.isWhitespace = false)
    (hlast : ∀ z zs, cs.reverse = z :: zs → z.isWhitespace = false) :
    pyStrip cs = cs := by
  obtain ⟨x, xs, rfl⟩ : ∃ x xs, cs = x :: xs := by
    cases cs with
    | nil => exact absurd rfl hne
    | cons x xs => exact ⟨x, xs, rfl⟩
  unfold pyStrip
  rw [dropWhile_cons_of_neg x xs (hhead x xs rfl)]
  obtain ⟨z, zs, hz⟩ : ∃ z zs, (x :: xs).reverse = z :: zs := by
    cases hr : (x :: xs).reverse with
    | nil => exact absurd hr (by simp)
    | cons z zs => exact ⟨z, zs, rfl⟩
  rw [hz, dropWhile_cons_of_neg z zs (hlast z zs hz), ← hz, List.reverse_reverse]

theorem takeWhile_eq_self_of_all {p : Char → Bool} (l : List Char)
    (h : ∀ c ∈ l, p c = true) : l.takeWhile p = l := by
  induction l with
  | nil => rfl
  | cons x xs ih =>
    rw [List.takeWhile_cons, if_pos (h x (List.mem_cons_self x xs))]
    rw [ih (fun c hc => h c (List.mem_cons_of_mem x hc))]

theorem takeWhile_append_stop {p : Char → Bool} (ds : List Char) (y : Char)
    (ys : List Char) (hds : ∀ c ∈ ds, p c = true) (hy : p y = false) :
    (ds ++ y :: ys).takeWhile p = ds := by
  induction ds with
  | nil => simp [List.takeWhile_cons, hy]
  | cons d ds' ih =>
    rw [List.cons_append, List.takeWhile_cons,
      if_pos (hds d (List.mem_cons_self d ds'))]
    rw [ih (fun c hc => hds c (List.mem_cons_of_mem d hc))]

theorem dropWhile_append_stop {p : Char → Bool} (ds : List Char) (y : Char)
    (ys : List Char) (hds : ∀ c ∈ ds, p c = true) (hy : p y = false) :
    (ds ++ y :: ys).dropWhile p = y :: ys := by
  induction ds with
  | nil => simp [List.dropWhile_cons, hy]
  | cons d ds' ih =>
    rw [List.cons_append, List.dropWhile_cons,
      if_pos (hds d (List.mem_cons_self d ds'))]
    rw [ih (fun c hc => hds c (List.mem_cons_of_mem d hc))]

theorem dropWhile_eq_self_of_all {p : Char → Bool} (l : List Char)
    (h : ∀ c ∈ l, p c = false) : l.dropWhile p = l := by
  cases l with
  | nil => rfl
  | cons x xs => exact dropWhile_cons_of_neg x xs (h x (List.mem_cons_self x xs))

theorem filter_eq_self_of_all {p : Char → Bool} (l : List Char)
    (h : ∀ c ∈ l, p c = true) : l.filter p = l := by
  induction l with
  | nil => rfl
  | cons x xs ih =>
    rw [List.filter_cons_of_pos (h x (List.mem_cons_self x xs))]
    rw [ih (fun c hc => h c (List.mem_cons_of_mem x hc))]

theorem decDigit_ne_comma_beq (c : Char) (h : c ∈ decDigits) :
    (!(c == ',')) = true := by
  fin_cases h <;> decide

theorem filter_comma_joinGroups (groups : List (List Char))
    (hd : ∀ g ∈ groups, ∀ c ∈ g, c ∈ decDigits) :
    (joinGroups groups).filter (fun c => !(c == ',')) = groups.flatten := by
  induction groups with
  | nil => rfl
  | cons g rest ih =>
    cases rest with
    | nil =>
      show (joinGroups [g]).filter (fun c => !(c == ',')) = [g].flatten
      rw [show joinGroups [g] = g from rfl]
      rw [filter_eq_self_of_all g
        (fun c hc => decDigit_ne_comma_beq c (hd g (List.mem_cons_self g []) c hc))]
      simp
    | cons g2 rest2 =>
      rw [show joinGroups (g :: g2 :: rest2) = g ++ ',' :: joinGroups (g2 :: rest2)
          from rfl]
      rw [List.filter_append, List.filter_cons_of_neg (by decide)]
      rw [filter_eq_self_of_all g
        (fun c hc => decDigit_ne_comma_beq c (hd g (List.mem_cons_self g _) c hc))]
      rw [ih (fun g' hg' c hc => hd g' (List.mem_cons_of_mem g hg') c hc)]
      simp

theorem filter_comma_renderGrouped (groups : List (List Char))
    (frac : Option (List Char)) (hv : ValidNumeral groups frac) :
    (renderGrouped groups frac).filter (fun c => !(c == ',')) =
      groups.flatten ++ fracPart frac := by
  unfold renderGrouped
  rw [List.filter_append]
  rw [filter_comma_joinGroups groups (fun g hg c hc => (hv.2.1 g hg).2 c hc)]
  congr 1
  cases frac with
  | none => rfl
  | some f =>
    rw [show fracPart (some f) = '.' :: f from rfl]
    rw [List.filter_cons_of_pos (by decide)]
    rw [filter_eq_self_of_all f
      (fun c hc => decDigit_ne_comma_beq c ((hv.2.2 f rfl).2 c hc))]

theorem dropWhile_eq_nil_of_all {p : Char → Bool} (l : List Char)
    (h : ∀ c ∈ l, p c = true) : l.dropWhile p = [] := by
  induction l with
  | nil => rfl
  | cons x xs ih =>
    rw [List.dropWhile_cons, if_pos (h x (List.mem_cons_self x xs))]
    exact ih (fun c hc => h c (List.mem_cons_of_mem x hc))

theorem not_contains_dot (f : List Char) (h : ∀ c ∈ f, c ∈ decDigits) :
    f.contains '.' = false := by
  by_cases hc : '.' ∈ f
  · exact absurd (h '.' hc) (by decide)
  · simpa using hc

theorem decDigit_beq_dot_false (c : Char) (h : c ∈ decDigits) :
    (!(c == '.')) = true := by
  fin_cases h <;> decide

theorem pyStrip_of_numChars (cs : List Char) (hne : cs ≠ [])
    (h : ∀ c ∈ cs, c.isWhitespace = false) : pyStrip cs = cs := by
  refine pyStrip_eq_self_of cs hne ?_ ?_
  · intro x xs hx
    exact h x (by rw [hx]; exact List.mem_cons_self x xs)
  · intro z zs hz
    refine h z ?_
    have : z ∈ cs.reverse := by rw [hz]; exact List.mem_cons_self z zs
    simpa using this

theorem pyFloatString_digits (ds : List Char) (hne : ds ≠ [])
    (hd : ∀ c ∈ ds, c ∈ decDigits) :
    pyFloatString (String.mk ds) = some ((natOfDigits ds : ℚ)) := by
  obtain ⟨d, ds', rfl⟩ : ∃ d ds', ds = d :: ds' := by
    cases ds with
    | nil => exact absurd rfl hne
    | cons d ds' => exact ⟨d, ds', rfl⟩
  have hstrip : pyStrip (String.mk (d :: ds')).toList = d :: ds' :=
    pyStrip_of_numChars _ (by simp) (fun c hc => decDigit_not_ws c (hd c hc))
  have hdm : ¬ ((d :: ds').head? = some '-') := by
    rw [List.head?_cons]
    intro h
    exact decDigit_ne d '-' (hd d (List.mem_cons_self d ds')) (by decide)
      (by injection h)
  have hdp : ¬ ((d :: ds').head? = some '-' ∨ (d :: ds').head? = some '+') := by
    rintro (h | h)
    · exact hdm h
    · rw [List.head?_cons] at h
      exact decDigit_ne d '+' (hd d (List.mem_cons_self d ds')) (by decide)
        (by injection h)
  unfold pyFloatString
  rw [hstrip]
  dsimp only
  rw [if_neg hdm, if_neg hdp]
  rw [takeWhile_eq_self_of_all (d :: ds')
    (fun c hc => decDigit_beq_dot_false c (hd c hc))]
  rw [dropWhile_eq_nil_of_all (d :: ds')
    (fun c hc => decDigit_beq_dot_false c (hd c hc))]
  rw [show floatCore 1 (d :: ds') [] =
    (if !(d :: ds').isEmpty && (d :: ds').all Char.isDigit then
      some ((1 : ℚ) * natOfDigits (d :: ds'))
    else Option.none) from rfl]
  rw [if_pos ?_]
  · rw [one_mul]
  · simp only [Bool.and_eq_true, Bool.not_eq_true']
    refine ⟨by simp, ?_⟩
    rw [List.all_eq_true]
    intro c hc
    exact decDigit_isDigit c (hd c hc)

theorem pyFloatString_digits_frac (ds f : List Char) (hne : ds ≠ [])
    (hd : ∀ c ∈ ds, c ∈ decDigits) (hf : ∀ c ∈ f, c ∈ decDigits) :
    pyFloatString (String.mk (ds ++ '.' :: f)) =
      some ((natOfDigits ds : ℚ) + natOfDigits f / 10 ^ f.length) := by
  obtain ⟨d, ds', rfl⟩ : ∃ d ds', ds = d :: ds' := by
    cases ds with
    | nil => exact absurd rfl hne
    | cons d ds' => exact ⟨d, ds', rfl⟩
  have hmem : ∀ c ∈ (d :: ds') ++ '.' :: f, c ∈ decDigits ∨ c = '.' := by
    intro c hc
    rcases List.mem_append.mp hc with h1 | h1
    · exact Or.inl (hd c h1)
    · rcases List.mem_cons.mp h1 with h2 | h2
      · exact Or.inr h2
      · exact Or.inl (hf c h2)
  have hstrip : pyStrip (String.mk ((d :: ds') ++ '.' :: f)).toList =
      (d :: ds') ++ '.' :: f := by
    refine pyStrip_of_numChars _ (by simp) ?_
    intro c hc
    rcases hmem c hc with h1 | h1
    · exact decDigit_not_ws c h1
    · subst h1; decide
  have hdm : ¬ (((d :: ds') ++ '.' :: f).head? = some '-') := by
    rw [List.cons_append, List.head?_cons]
    intro h
    exact decDigit_ne d '-' (hd d (List.mem_cons_self d ds')) (by decide)
      (by injection h)
  have hdp : ¬ (((d :: ds') ++ '.' :: f).head? = some '-' ∨
      ((d :: ds') ++ '.' :: f).head? = some '+') := by
    rintro (h | h)
    · exact hdm h
    · rw [List.cons_append, List.head?_cons] at h
      exact decDigit_ne d '+' (hd d (List.mem_cons_self d ds')) (by decide)
        (by injection h)
  unfold pyFloatString
  rw [hstrip]
  dsimp only
  rw [if_neg hdm, if_neg hdp]
  rw [takeWhile_append_stop (d :: ds') '.' f
    (fun c hc => decDigit_beq_dot_false c (hd c hc)) (by decide)]
  rw [dropWhile_append_stop (d :: ds') '.' f
    (fun c hc => decDigit_beq_dot_false c (hd c hc)) (by decide)]
  rw [show floatCore 1 (d :: ds') ('.' :: f) =
    (if f.contains '.' then Option.none
     else if !((d :: ds') ++ f).isEmpty && ((d :: ds') ++ f).all Char.isDigit then
       some ((1 : ℚ) * (natOfDigits (d :: ds') + natOfDigits f / 10 ^ f.length))
     else Option.none) from rfl]
  rw [if_neg (by rw [not_contains_dot f hf]; simp)]
  rw [if_pos ?_]
  · rw [one_mul]
  · simp only [Bool.and_eq_true, Bool.not_eq_true']
    refine ⟨by simp, ?_⟩
    rw [List.all_eq_true]
    intro c hc
    rcases List.mem_append.mp hc with h1 | h1
    · exact decDigit_isDigit c (hd c h1)
    · exact decDigit_isDigit c (hf c h1)

theorem char_not_in_append (markL numeral : List Char) (t : Char)
    (hmark : t ∉ markL) (ht : t ∉ decDigits ∧ t ≠ ',' ∧ t ≠ '.')
    (hnchars : ∀ x ∈ numeral, x ∈ decDigits ∨ x = ',' ∨ x = '.') :
    t ∉ markL ++ numeral := by
  intro h
  rcases List.mem_append.mp h with h | h
  · exact hmark h
  · rcases hnchars t h with h1 | h1 | h1
    · exact ht.1 h1
    · exact ht.2.1 h1
    · exact ht.2.2 h1

theorem pyStrip_mark_numeral (m : Char) (ms numeral : List Char)
    (hmws : m.isWhitespace = false) (hn : numeral ≠ [])
    (hnws : ∀ x ∈ numeral, x.isWhitespace = false) :
    pyStrip ((m :: ms) ++ numeral) = (m :: ms) ++ numeral := by
  obtain ⟨z0, zr, hnr⟩ : ∃ z0 zr, numeral.reverse = z0 :: zr := by
    cases hr : numeral.reverse with
    | nil => exact absurd (by simpa using hr) hn
    | cons z zs => exact ⟨z, zs, rfl⟩
  refine pyStrip_eq_self_of _ (by simp) ?_ ?_
  · intro x xs hx
    rw [List.cons_append] at hx
    have : x = m := by injection hx with h1 _; exact h1.symm
    rw [this]; exact hmws
  · intro z zs hz
    rw [List.reverse_append, hnr, List.cons_append] at hz
    have : z = z0 := by injection hz with h1 _; exact h1.symm
    rw [this]
    refine hnws z0 ?_
    have hz0 : z0 ∈ numeral.reverse := by rw [hnr]; simp
    simpa using hz0

theorem flatten_ne_nil (groups : List (List Char)) (frac : Option (List Char))
    (hv : ValidNumeral groups frac) : groups.flatten ≠ [] := by
  obtain ⟨g, rest, rfl⟩ : ∃ g rest, groups = g :: rest := by
    cases groups with
    | nil => exact absurd rfl hv.1
    | cons g rest => exact ⟨g, rest, rfl⟩
  have hg : g ≠ [] := (hv.2.1 g (List.mem_cons_self g rest)).1
  simp only [List.flatten_cons]
  intro h
  exact hg (List.append_eq_nil.mp h).1

theorem renderGrouped_ne_nil (groups : List (List Char)) (frac : Option (List Char))
    (hv : ValidNumeral groups frac) : renderGrouped groups frac ≠ [] := by
  unfold renderGrouped
  have hj : joinGroups groups ≠ [] := by
    obtain ⟨g, rest, rfl⟩ : ∃ g rest, groups = g :: rest := by
      cases groups with
      | nil => exact absurd rfl hv.1
      | cons g rest => exact ⟨g, rest, rfl⟩
    have hg : g ≠ [] := (hv.2.1 g (List.mem_cons_self g rest)).1
    cases rest with
    | nil => simpa [joinGroups] using hg
    | cons g2 rest2 =>
      rw [show joinGroups (g :: g2 :: rest2) = g ++ ',' :: joinGroups (g2 :: rest2)
          from rfl]
      intro h
      exact hg (List.append_eq_nil.mp h).1
  intro h
  exact hj (List.append_eq_nil.mp h).1

/-- `_parse_price` applied to a currency mark followed by a valid
numeral: the numeric value is the numeral's (commas stripped, first
contiguous run taken); the currency is whatever the detection chain says
about the text. -/
theorem parse_price_eval (groups : List (List Char)) (frac : Option (List Char))
    (hv : ValidNumeral groups frac) (m : Char) (ms : List Char)
    (hmws : m.isWhitespace = false)
    (hmarkrun : ∀ c ∈ m :: ms, isNumRunChar c = false) :
    parse_price (some (String.mk ((m :: ms) ++ renderGrouped groups frac))) =
      (some (numeralValue groups frac),
        currencyOf ((m :: ms) ++ renderGrouped groups frac)) := by
  have hnchars := mem_renderGrouped groups frac hv
  have hn_ne : renderGrouped groups frac ≠ [] := renderGrouped_ne_nil groups frac hv
  obtain ⟨n0, nrest, hnum⟩ : ∃ n0 nrest, renderGrouped groups frac = n0 :: nrest := by
    cases h : renderGrouped groups frac with
    | nil => exact absurd h hn_ne
    | cons n0 nrest => exact ⟨n0, nrest, rfl⟩
  have hs_ne : String.mk ((m :: ms) ++ renderGrouped groups frac) ≠ "" := by
    intro h
    have := congrArg String.data h
    simp at this
  have htl : (String.mk ((m :: ms) ++ renderGrouped groups frac)).toList =
      (m :: ms) ++ renderGrouped groups frac := rfl
  have hstrip := pyStrip_mark_numeral m ms (renderGrouped groups frac) hmws hn_ne
    (fun x hx => numeralChar_not_ws x (hnchars x hx))
  have hrun : firstNumRun ((m :: ms) ++ renderGrouped groups frac) =
      renderGrouped groups frac := by
    unfold firstNumRun
    rw [hnum, dropWhile_append_stop (m :: ms) n0 nrest
      (fun c hc => by rw [hmarkrun c hc]; rfl)
      (by rw [numeralChar_numRun n0 (hnchars n0 (by rw [hnum]; simp))]; rfl)]
    rw [takeWhile_eq_self_of_all (n0 :: nrest)
      (fun c hc => numeralChar_numRun c (hnchars c (by rw [hnum]; exact hc)))]
  have hfilter := filter_comma_renderGrouped groups frac hv
  simp only [parse_price]
  rw [if_neg hs_ne, htl, hstrip, hrun]
  rw [if_neg (by simpa [List.isEmpty_iff] using hn_ne)]
  rw [hfilter]
  have hdig : ∀ c ∈ groups.flatten, c ∈ decDigits := by
    intro c hc
    obtain ⟨g, hg, hcg⟩ := List.mem_flatten.mp hc
    exact (hv.2.1 g hg).2 c hcg
  cases hf : frac with
  | none =>
    rw [show fracPart (Option.none : Option (List Char)) = ([] : List Char) from rfl,
      List.append_nil]
    rw [pyFloatString_digits groups.flatten (flatten_ne_nil groups frac hv) hdig]
    rw [show numeralValue groups Option.none = (natOfDigits groups.flatten : ℚ) from by
      unfold numeralValue fracValue; rw [add_zero]]
  | some f =>
    rw [show fracPart (some f) = '.' :: f from rfl]
    rw [pyFloatString_digits_frac groups.flatten f (flatten_ne_nil groups frac hv)
      hdig (fun c hc => (hv.2.2 f hf).2 c hc)]
    rw [show numeralValue groups (some f) =
        (natOfDigits groups.flatten : ℚ) + natOfDigits f / 10 ^ f.length from rfl]

/-- C9: for every amount rendered canonically (digit groups joined by
commas, optional fractional digits) in each of the six currencies,
`_parse_price` returns exactly the amount's value and that currency —
the numeric side strips the commas and takes the first contiguous
numeric run, as the grouped rendering exercises. -/
theorem parse_price_round_trip (groups : List (List Char))
    (frac : Option (List Char)) (c : String) (hv : ValidNumeral groups frac)
    (hc : c ∈ ["INR", "USD", "EUR", "GBP", "CAD", "AUD"]) :
    parse_price (some (fmt_price groups frac c)) =
      (some (numeralValue groups frac), some c) := by
  have hnchars := mem_renderGrouped groups frac hv
  have hnlow : (renderGrouped groups frac).map Char.toLower =
      renderGrouped groups frac := by
    have h1 : (renderGrouped groups frac).map Char.toLower =
        (renderGrouped groups frac).map (fun a => a) :=
      List.map_congr_left (fun a ha => numeralChar_toLower a (hnchars a ha))
    rw [h1, List.map_id']
  fin_cases hc
  · -- INR
    rw [show fmt_price groups frac "INR" =
        String.mk (('₹' :: []) ++ renderGrouped groups frac) from by
      unfold fmt_price
      rw [show currencyMark "INR" = ['₹'] from by decide]]
    rw [parse_price_eval groups frac hv '₹' [] (by decide) (by decide)]
    refine congrArg _ ?_
    simp only [currencyOf]
    rw [List.map_append, show (['₹'].map Char.toLower) = ['₹'] from by decide, hnlow]
    rw [hasSub_of_append ['₹'] (renderGrouped groups frac)]
    rw [if_pos (by simp)]
  · -- USD
    rw [show fmt_price groups frac "USD" =
        String.mk (('$' :: []) ++ renderGrouped groups frac) from by
      unfold fmt_price
      rw [show currencyMark "USD" = ['$'] from by decide]]
    rw [parse_price_eval groups frac hv '$' [] (by decide) (by decide)]
    refine congrArg _ ?_
    simp only [currencyOf]
    rw [List.map_append, show (['$'].map Char.toLower) = ['$'] from by decide, hnlow]
    rw [not_hasSub_of_not_mem _ _ '₹' (by decide)
      (char_not_in_append ['$'] _ '₹' (by decide) (by decide) hnchars)]
    rw [not_hasSub_of_not_mem _ ['r', 's'] 'r' (by decide)
      (char_not_in_append ['$'] _ 'r' (by decide) (by decide) hnchars)]
    rw [not_hasSub_of_not_mem _ ['r', 's', '.'] 'r' (by decide)
      (char_not_in_append ['$'] _ 'r' (by decide) (by decide) hnchars)]
    rw [not_hasSub_of_not_mem _ ['i', 'n', 'r'] 'i' (by decide)
      (char_not_in_append ['$'] _ 'i' (by decide) (by decide) hnchars)]
    rw [if_neg (by simp)]
    rw [hasSub_of_append ['$'] (renderGrouped groups frac)]
    rw [if_pos (by simp)]
  · -- EUR
    rw [show fmt_price groups frac "EUR" =
        String.mk (('€' :: []) ++ renderGrouped groups frac) from by
      unfold fmt_price
      rw [show currencyMark "EUR" = ['€'] from by decide]]
    rw [parse_price_eval groups frac hv '€' [] (by decide) (by decide)]
    refine congrArg _ ?_
    simp only [currencyOf]
    rw [List.map_append, show (['€'].map Char.toLower) = ['€'] from by decide, hnlow]
    rw [not_hasSub_of_not_mem _ _ '₹' (by decide)
      (char_not_in_append ['€'] _ '₹' (by decide) (by decide) hnchars)]
    rw [not_hasSub_of_not_mem _ ['r', 's'] 'r' (by decide)
      (char_not_in_append ['€'] _ 'r' (by decide) (by decide) hnchars)]
    rw [not_hasSub_of_not_mem _ ['r', 's', '.'] 'r' (by decide)
      (char_not_in_append ['€'] _ 'r' (by decide) (by decide) hnchars)]
    rw [not_hasSub_of_not_mem _ ['i', 'n', 'r'] 'i' (by decide)
      (char_not_in_append ['€'] _ 'i' (by decide) (by decide) hnchars)]
    rw [if_neg (by simp)]
    rw [not_hasSub_of_not_mem _ ['$'] '$' (by decide)
      (char_not_in_append ['€'] _ '$' (by decide) (by decide) hnchars)]
    rw [not_hasSub_of_not_mem _ ['u', 's', 'd'] 'u' (by decide)
      (char_not_in_append ['€'] _ 'u' (by decide) (by decide) hnchars)]
    rw [if_neg (by simp)]
    rw [hasSub_of_append ['€'] (renderGrouped groups frac)]
    rw [if_pos (by simp)]
  · -- GBP
    rw [show fmt_price groups frac "GBP" =
        String.mk (('£' :: []) ++ renderGrouped groups frac) from by
      unfold fmt_price
      rw [show currencyMark "GBP" = ['£'] from by decide]]
    rw [parse_price_eval groups frac hv '£' [] (by decide) (by decide)]
    refine congrArg _ ?_
    simp only [currencyOf]
    rw [List.map_append, show (['£'].map Char.toLower) = ['£'] from by decide, hnlow]
    rw [not_hasSub_of_not_mem _ _ '₹' (by decide)
      (char_not_in_append ['£'] _ '₹' (by decide) (by decide) hnchars)]
    rw [not_hasSub_of_not_mem _ ['r', 's'] 'r' (by decide)
      (char_not_in_append ['£'] _ 'r' (by decide) (by decide) hnchars)]
    rw [not_hasSub_of_not_mem _ ['r', 's', '.'] 'r' (by decide)
      (char_not_in_append ['£'] _ 'r' (by decide) (by decide) hnchars)]
    rw [not_hasSub_of_not_mem _ ['i', 'n', 'r'] 'i' (by decide)
      (char_not_in_append ['£'] _ 'i' (by decide) (by decide) hnchars)]
    rw [if_neg (by simp)]
    rw [not_hasSub_of_not_mem _ ['$'] '$' (by decide)
      (char_not_in_append ['£'] _ '$' (by decide) (by decide) hnchars)]
    rw [not_hasSub_of_not_mem _ ['u', 's', 'd'] 'u' (by decide)
      (char_not_in_append ['£'] _ 'u' (by decide) (by decide) hnchars)]
    rw [if_neg (by simp)]
    rw [not_hasSub_of_not_mem _ ['€'] '€' (by decide)
      (char_not_in_append ['£'] _ '€' (by decide) (by decide) hnchars)]
    rw [not_hasSub_of_not_mem _ ['e', 'u', 'r'] 'e' (by decide)
      (char_not_in_append ['£'] _ 'e' (by decide) (by decide) hnchars)]
    rw [if_neg (by simp)]
    rw [hasSub_of_append ['£'] (renderGrouped groups frac)]
    rw [if_pos (by simp)]
  · -- CAD
    rw [show fmt_price groups frac "CAD" =
        String.mk (('C' :: ['A', 'D', ' ']) ++ renderGrouped groups frac) from by
      unfold fmt_price
      rw [show currencyMark "CAD" = ['C', 'A', 'D', ' '] from by decide]]
    rw [parse_price_eval groups frac hv 'C' ['A', 'D', ' '] (by decide) (by decide)]
    refine congrArg _ ?_
    simp only [currencyOf]
    rw [List.map_append,
      show ((['C', 'A', 'D', ' '] : List Char).map Char.toLower) =
        ['c', 'a', 'd', ' '] from by decide, hnlow]
    rw [not_hasSub_of_not_mem _ _ '₹' (by decide)
      (char_not_in_append ['c', 'a', 'd', ' '] _ '₹' (by decide) (by decide) hnchars)]
    rw [not_hasSub_of_not_mem _ ['r', 's'] 'r' (by decide)
      (char_not_in_append ['c', 'a', 'd', ' '] _ 'r' (by decide) (by decide) hnchars)]
    rw [not_hasSub_of_not_mem _ ['r', 's', '.'] 'r' (by decide)
      (char_not_in_append ['c', 'a', 'd', ' '] _ 'r' (by decide) (by decide) hnchars)]
    rw [not_hasSub_of_not_mem _ ['i', 'n', 'r'] 'i' (by decide)
      (char_not_in_append ['c', 'a', 'd', ' '] _ 'i' (by decide) (by decide) hnchars)]
    rw [if_neg (by simp)]
    rw [not_hasSub_of_not_mem _ ['$'] '$' (by decide)
      (char_not_in_append ['C', 'A', 'D', ' '] _ '$' (by decide) (by decide) hnchars)]
    rw [not_hasSub_of_not_mem _ ['u', 's', 'd'] 'u' (by decide)
      (char_not_in_append ['c', 'a', 'd', ' '] _ 'u' (by decide) (by decide) hnchars)]
    rw [if_neg (by simp)]
    rw [not_hasSub_of_not_mem _ ['€'] '€' (by decide)
      (char_not_in_append ['C', 'A', 'D', ' '] _ '€' (by decide) (by decide) hnchars)]
    rw [not_hasSub_of_not_mem _ ['e', 'u', 'r'] 'e' (by decide)
      (char_not_in_append ['c', 'a', 'd', ' '] _ 'e' (by decide) (by decide) hnchars)]
    rw [if_neg (by simp)]
    rw [not_hasSub_of_not_mem _ ['£'] '£' (by decide)
      (char_not_in_append ['C', 'A', 'D', ' '] _ '£' (by decide) (by decide) hnchars)]
    rw [not_hasSub_of_not_mem _ ['g', 'b', 'p'] 'g' (by decide)
      (char_not_in_append ['c', 'a', 'd', ' '] _ 'g' (by decide) (by decide) hnchars)]
    rw [if_neg (by simp)]
    have hpos : hasSub (['c', 'a', 'd', ' '] ++ renderGrouped groups frac)
        ['c', 'a', 'd'] = true := by
      rw [show (['c', 'a', 'd', ' '] : List Char) ++ renderGrouped groups frac =
        ['c', 'a', 'd'] ++ (' ' :: renderGrouped groups frac) from rfl]
      exact hasSub_of_append ['c', 'a', 'd'] (' ' :: renderGrouped groups frac)
    rw [hpos, if_pos (by simp)]
  · -- AUD
    rw [show fmt_price groups frac "AUD" =
        String.mk (('A' :: ['U', 'D', ' ']) ++ renderGrouped groups frac) from by
      unfold fmt_price
      rw [show currencyMark "AUD" = ['A', 'U', 'D', ' '] from by decide]]
    rw [parse_price_eval groups frac hv 'A' ['U', 'D', ' '] (by decide) (by decide)]
    refine congrArg _ ?_
    simp only [currencyOf]
    rw [List.map_append,
      show ((['A', 'U', 'D', ' '] : List Char).map Char.toLower) =
        ['a', 'u', 'd', ' '] from by decide, hnlow]
    rw [not_hasSub_of_not_mem _ _ '₹' (by decide)
      (char_not_in_append ['a', 'u', 'd', ' '] _ '₹' (by decide) (by decide) hnchars)]
    rw [not_hasSub_of_not_mem _ ['r', 's'] 'r' (by decide)
      (char_not_in_append ['a', 'u', 'd', ' '] _ 'r' (by decide) (by decide) hnchars)]
    rw [not_hasSub_of_not_mem _ ['r', 's', '.'] 'r' (by decide)
      (char_not_in_append ['a', 'u', 'd', ' '] _ 'r' (by decide) (by decide) hnchars)]
    rw [not_hasSub_of_not_mem _ ['i', 'n', 'r'] 'i' (by decide)
      (char_not_in_append ['a', 'u', 'd', ' '] _ 'i' (by decide) (by decide) hnchars)]
    rw [if_neg (by simp)]
    rw [not_hasSub_of_not_mem _ ['$'] '$' (by decide)
      (char_not_in_append ['A', 'U', 'D', ' '] _ '$' (by decide) (by decide) hnchars)]
    rw [not_hasSub_of_not_mem _ ['u', 's', 'd'] 's' (by decide)
      (char_not_in_append ['a', 'u', 'd', ' '] _ 's' (by decide) (by decide) hnchars)]
    rw [if_neg (by simp)]
    rw [not_hasSub_of_not_mem _ ['€'] '€' (by decide)
      (char_not_in_append ['A', 'U', 'D', ' '] _ '€' (by decide) (by decide) hnchars)]
    rw [not_hasSub_of_not_mem _ ['e', 'u', 'r'] 'e' (by decide)
      (char_not_in_append ['a', 'u', 'd', ' '] _ 'e' (by decide) (by decide) hnchars)]
    rw [if_neg (by simp)]
    rw [not_hasSub_of_not_mem _ ['£'] '£' (by decide)
      (char_not_in_append ['A', 'U', 'D', ' '] _ '£' (by decide) (by decide) hnchars)]
    rw [not_hasSub_of_not_mem _ ['g', 'b', 'p'] 'g' (by decide)
      (char_not_in_append ['a', 'u', 'd', ' '] _ 'g' (by decide) (by decide) hnchars)]
    rw [if_neg (by simp)]
    rw [not_hasSub_of_not_mem _ ['c', 'a', 'd'] 'c' (by decide)
      (char_not_in_append ['a', 'u', 'd', ' '] _ 'c' (by decide) (by decide) hnchars)]
    rw [if_neg (by simp)]
    have hpos : hasSub (['a', 'u', 'd', ' '] ++ renderGrouped groups frac)
        ['a', 'u', 'd'] = true := by
      rw [show (['a', 'u', 'd', ' '] : List Char) ++ renderGrouped groups frac =
        ['a', 'u', 'd'] ++ (' ' :: renderGrouped groups frac) from rfl]
      exact hasSub_of_append ['a', 'u', 'd'] (' ' :: renderGrouped groups frac)
    rw [hpos, if_pos (by simp)]

/-- C9 — witness: `"$1,234.56"` parses back to `1234.56` USD. -/
theorem parse_price_round_trip_witness :
    parse_price (some (fmt_price [['1'], ['2', '3', '4']] (some ['5', '6']) "USD")) =
      (some (numeralValue [['1'], ['2', '3', '4']] (some ['5', '6'])), some "USD") :=
  parse_price_round_trip [['1'], ['2', '3', '4']] (some ['5', '6']) "USD"
    (by
      refine ⟨by decide, by decide, ?_⟩
      intro f hf
      have hf' : f = ['5', '6'] := by injection hf with h; exact h.symm
      subst hf'
      exact ⟨by decide, by decide⟩)
    (by decide)

end Scraper
